import Mathlib

/-!
# Verification of the CurveBuilderToy curve-and-pricing engine

Shallow embedding of the yield-curve library (`src/core/curve.py`,
`src/core/instruments.py`) and of the overlap diagnostic in
`demo_overlap_analysis.py`, together with theorems settling the frozen
claims about the natural-language specification.

Real-valued quantities are modelled by `ℝ`; Python float arithmetic is
modelled as exact real arithmetic.  Fallible operations (Python
`raise` / `ZeroDivisionError`) are modelled with `Except String`.
Rational numbers are used for the purely arithmetic overlap diagnostic so
that concrete instances can be settled by `decide`.
-/

namespace CurveToy

/-! ## Overlap detection (`demo_overlap_analysis.find_overlapping_regions`)

The demo passes lists of `IRSwap`s; each element carries a `start_date` and a
`maturity` (every `IRSwap` has the `is_forward_starting` attribute, so the
`hasattr` guard in the source is always true for these lists). -/

/-- Start date and maturity of one instrument, as used by the overlap
diagnostic (rationals so the development is decidable). -/
structure SwapIvl where
  s : ℚ
  m : ℚ
  deriving DecidableEq, Repr

/-- Insert a value into a sorted duplicate-free list, keeping it sorted and
duplicate-free.  Models `sorted(list(set(...)))` from the source. -/
def insertSortedDedup (x : ℚ) : List ℚ → List ℚ
  | [] => [x]
  | y :: ys =>
    if x < y then x :: y :: ys
    else if x = y then y :: ys
    else y :: insertSortedDedup x ys

/-- The sorted union of all `start_date` / `maturity` breakpoints of the
instrument list (`breakpoints = sorted(list(set(...)))` in the source). -/
def breakpoints (insts : List SwapIvl) : List ℚ :=
  (insts.flatMap fun i => [i.s, i.m]).foldr insertSortedDedup []

/-- Adjacent pairs `(breakpoints[i], breakpoints[i+1])` of a list. -/
def adjacentPairs : List ℚ → List (ℚ × ℚ)
  | [] => []
  | [_] => []
  | a :: b :: rest => (a, b) :: adjacentPairs (b :: rest)

/-- Instruments whose `[start_date, maturity]` interval contains `x`. -/
def covering (insts : List SwapIvl) (x : ℚ) : List SwapIvl :=
  insts.filter fun i => i.s ≤ x ∧ x ≤ i.m

/-- `find_overlapping_regions` from `demo_overlap_analysis.py`: for each
adjacent breakpoint pair, test the midpoint against every instrument's
`[start_date, maturity]`; keep the intervals covered by more than one
instrument, with the list of covering instruments. -/
def find_overlapping_regions (insts : List SwapIvl) :
    List (ℚ × ℚ × List SwapIvl) :=
  (adjacentPairs (breakpoints insts)).filterMap fun ab =>
    let cov := covering insts ((ab.1 + ab.2) / 2)
    if 1 < cov.length then some (ab.1, ab.2, cov) else none

end CurveToy

namespace CurveToy

/-! ### Sortedness and membership of `breakpoints` -/

theorem insertSortedDedup_mem (x : ℚ) (l : List ℚ) (z : ℚ) :
    z ∈ insertSortedDedup x l ↔ z = x ∨ z ∈ l := by
  induction l with
  | nil => simp [insertSortedDedup]
  | cons y ys ih =>
    by_cases h1 : x < y
    · simp only [insertSortedDedup, if_pos h1, List.mem_cons]
    · by_cases h2 : x = y
      · subst h2
        rw [insertSortedDedup, if_neg h1, if_pos rfl]
        simp only [List.mem_cons]
        tauto
      · simp only [insertSortedDedup, if_neg h1, if_neg h2, List.mem_cons, ih]
        tauto

theorem insertSortedDedup_sorted (x : ℚ) (l : List ℚ)
    (hl : l.Sorted (· < ·)) : (insertSortedDedup x l).Sorted (· < ·) := by
  induction l with
  | nil => simp [insertSortedDedup]
  | cons y ys ih =>
    have hys : ys.Sorted (· < ·) := hl.of_cons
    have hy : ∀ z ∈ ys, y < z := fun z hz => (List.sorted_cons.mp hl).1 z hz
    by_cases h1 : x < y
    · rw [insertSortedDedup, if_pos h1, List.sorted_cons]
      refine ⟨fun z hz => ?_, hl⟩
      rcases List.mem_cons.mp hz with hz | hz
      · exact hz ▸ h1
      · exact h1.trans (hy z hz)
    · by_cases h2 : x = y
      · rw [insertSortedDedup, if_neg h1, if_pos h2]
        exact hl
      · have hyx : y < x := lt_of_le_of_ne (not_lt.mp h1) (Ne.symm h2)
        rw [insertSortedDedup, if_neg h1, if_neg h2, List.sorted_cons]
        refine ⟨fun z hz => ?_, ih hys⟩
        rcases (insertSortedDedup_mem x ys z).mp hz with hz | hz
        · exact hz ▸ hyx
        · exact hy z hz

theorem breakpoints_sorted (insts : List SwapIvl) :
    (breakpoints insts).Sorted (· < ·) := by
  unfold breakpoints
  generalize (insts.flatMap fun i => [i.s, i.m]) = l
  induction l with
  | nil => simp
  | cons a l ih => exact insertSortedDedup_sorted a _ ih

theorem breakpoints_mem (insts : List SwapIvl) (x : ℚ) :
    x ∈ breakpoints insts ↔ ∃ i ∈ insts, x = i.s ∨ x = i.m := by
  unfold breakpoints
  have key : ∀ l : List ℚ, x ∈ l.foldr insertSortedDedup [] ↔ x ∈ l := by
    intro l
    induction l with
    | nil => simp
    | cons a l ih => simp [insertSortedDedup_mem, ih]
  rw [key]
  simp only [List.mem_flatMap, List.mem_cons, List.not_mem_nil, or_false]

theorem find_overlapping_mem (insts : List SwapIvl) (a b : ℚ) (cov : List SwapIvl) :
    (a, b, cov) ∈ find_overlapping_regions insts ↔
      (a, b) ∈ adjacentPairs (breakpoints insts) ∧
        cov = covering insts ((a + b) / 2) ∧ 1 < cov.length := by
  unfold find_overlapping_regions
  rw [List.mem_filterMap]
  constructor
  · rintro ⟨⟨x, y⟩, hmem, hf⟩
    by_cases hlen : 1 < (covering insts ((x + y) / 2)).length
    · rw [if_pos hlen] at hf
      obtain ⟨hx, hy, hc⟩ : x = a ∧ y = b ∧ covering insts ((x + y) / 2) = cov := by
        have := Option.some.inj hf
        exact ⟨congrArg (·.1) this, congrArg (·.2.1) this, congrArg (·.2.2) this⟩
      subst hx; subst hy; subst hc
      exact ⟨hmem, rfl, hlen⟩
    · rw [if_neg hlen] at hf
      exact absurd hf (Option.noConfusion)
  · rintro ⟨hmem, hcov, hlen⟩
    refine ⟨(a, b), hmem, ?_⟩
    rw [if_pos (hcov ▸ hlen)]
    rw [hcov]

/-- C9: overlap detection forms the sorted union of all start/maturity
breakpoints and reports an adjacent-breakpoint interval exactly when its
midpoint lies inside the `[start_date, maturity]` range of more than one
instrument, together with the covering instruments; on the instrument
intervals `[(0,2), (1,4), (2,5)]` exactly the intervals `(1,2)` and `(2,4)`
are reported, each covered by two instruments. -/
theorem C9_find_overlapping_regions :
    (∀ insts : List SwapIvl,
      (breakpoints insts).Sorted (· < ·) ∧
      (∀ x, x ∈ breakpoints insts ↔ ∃ i ∈ insts, x = i.s ∨ x = i.m) ∧
      (∀ (a b : ℚ) (cov : List SwapIvl),
        (a, b, cov) ∈ find_overlapping_regions insts ↔
          (a, b) ∈ adjacentPairs (breakpoints insts) ∧
            cov = covering insts ((a + b) / 2) ∧ 1 < cov.length)) ∧
    find_overlapping_regions [⟨0, 2⟩, ⟨1, 4⟩, ⟨2, 5⟩] =
      [(1, 2, [⟨0, 2⟩, ⟨1, 4⟩]), (2, 4, [⟨1, 4⟩, ⟨2, 5⟩])] := by
  refine ⟨fun insts => ⟨breakpoints_sorted insts, breakpoints_mem insts,
    fun a b cov => find_overlapping_mem insts a b cov⟩, ?_⟩
  norm_num [find_overlapping_regions, breakpoints, insertSortedDedup, adjacentPairs,
    covering, List.flatMap, List.filter, List.filterMap]

/-! ## The yield curve (`src/core/curve.py`)

Curve nodes are kept as parallel `tenors` / `rates` lists as in the source;
interpolators work on the zipped node list.  `scipy.interpolate.interp1d`
with `fill_value` set to extrapolation is modelled directly:
`kind` linear is piecewise-linear with boundary-segment extrapolation,
`kind` previous is a left-continuous step function, and `kind` cubic is a
cubic spline through the nodes (natural spline, as the specification
describes; every claim below depends only on the spline passing through its
end nodes, which holds for any choice of second-derivative vector).
`scipy` rejects input with fewer than two points, so construction requires
two nodes. -/

/-- Interpolation method names accepted by `YieldCurve.__init__`. -/
inductive Method where
  | linear
  | cubic
  | log_linear
  | flat
  | hybrid
  deriving DecidableEq, Repr

/-- `np.isclose(a, b)` with the default tolerances
`rtol = 1e-5`, `atol = 1e-8`. -/
def npIsClose (a b : ℝ) : Prop := |a - b| ≤ 1e-8 + 1e-5 * |b|

/-- Boolean form of `npIsClose`. -/
noncomputable def npIsCloseB (a b : ℝ) : Bool := decide (|a - b| ≤ 1e-8 + 1e-5 * |b|)

/-- The straight line through `(a, ya)` and `(b, yb)` evaluated at `x`. -/
noncomputable def linearSegment (a b ya yb x : ℝ) : ℝ :=
  ya + (x - a) * (yb - ya) / (b - a)

/-- Piecewise-linear interpolation on the node list with linear
extrapolation from the boundary segments
(`interp1d(..., kind=linear, fill_value=extrapolate)`). -/
noncomputable def piecewiseLinear : List (ℝ × ℝ) → ℝ → ℝ
  | [], _ => 0
  | [(_, y)], _ => y
  | [(a, ya), (b, yb)], x => linearSegment a b ya yb x
  | (a, ya) :: (b, yb) :: p :: rest, x =>
    if x ≤ b then linearSegment a b ya yb x
    else piecewiseLinear ((b, yb) :: p :: rest) x

/-- Left-continuous step function: the value at the largest node `≤ x`,
clamped to the boundary values outside the node range.  This is both the
custom flat logic of `YieldCurve.get_rate` and of
`YieldCurve._get_rate_from_interpolator` (`searchsorted` side right). -/
noncomputable def stepRate : List (ℝ × ℝ) → ℝ → ℝ
  | [], _ => 0
  | [(_, y)], _ => y
  | (_, y1) :: (t2, y2) :: rest, x =>
    if x < t2 then y1 else stepRate ((t2, y2) :: rest) x

/-- One cubic-spline segment on `[a, b]` in terms of the second derivatives
`Ma`, `Mb` at its ends; interpolates `(a, ya)` and `(b, yb)` for any
`Ma`, `Mb`. -/
noncomputable def splineSegment (a b ya yb Ma Mb x : ℝ) : ℝ :=
  let h := b - a
  Ma * (b - x) ^ 3 / (6 * h) + Mb * (x - a) ^ 3 / (6 * h) +
    (ya - Ma * h ^ 2 / 6) * (b - x) / h + (yb - Mb * h ^ 2 / 6) * (x - a) / h

/-- Rows `(sub, diag, super, rhs)` of the tridiagonal system for the
interior second derivatives of a cubic spline. -/
noncomputable def splineRows : List (ℝ × ℝ) → List (ℝ × ℝ × ℝ × ℝ)
  | (t0, y0) :: (t1, y1) :: (t2, y2) :: rest =>
    (t1 - t0, 2 * (t2 - t0), t2 - t1,
      6 * ((y2 - y1) / (t2 - t1) - (y1 - y0) / (t1 - t0))) ::
      splineRows ((t1, y1) :: (t2, y2) :: rest)
  | _ => []

/-- Forward sweep of the Thomas algorithm; carries the previous modified
super-diagonal and right-hand side. -/
noncomputable def thomasSweep : List (ℝ × ℝ × ℝ × ℝ) → ℝ → ℝ → List (ℝ × ℝ)
  | [], _, _ => []
  | (a, b, c, d) :: rest, cp, dp =>
    let den := b - a * cp
    let c2 := c / den
    let d2 := (d - a * dp) / den
    (c2, d2) :: thomasSweep rest c2 d2

/-- Back substitution of the Thomas algorithm on the reversed sweep
output; carries the next solution component. -/
noncomputable def thomasBack : List (ℝ × ℝ) → ℝ → List ℝ
  | [], _ => []
  | (c2, d2) :: rest, xnext =>
    let x := d2 - c2 * xnext
    x :: thomasBack rest x

/-- Second-derivative vector of the natural cubic spline through the
nodes (zero curvature at both ends, interior values from the tridiagonal
system). -/
noncomputable def naturalSplineM (l : List (ℝ × ℝ)) : List ℝ :=
  0 :: (thomasBack (thomasSweep (splineRows l) 0 0).reverse 0).reverse ++ [0]

/-- Evaluate the cubic spline given nodes and the matching list of second
derivatives, extrapolating with the boundary segments.  If the
second-derivative list runs out (impossible for a well-formed spline) the
remaining nodes are interpolated linearly, keeping the function total. -/
noncomputable def splineEvalAux : List (ℝ × ℝ) → List ℝ → ℝ → ℝ
  | [(a, ya), (b, yb)], Ma :: Mb :: _, x => splineSegment a b ya yb Ma Mb x
  | (a, ya) :: (b, yb) :: p :: rest, Ma :: Mb :: ms, x =>
    if x ≤ b then splineSegment a b ya yb Ma Mb x
    else splineEvalAux ((b, yb) :: p :: rest) (Mb :: ms) x
  | l, _, x => piecewiseLinear l x

/-- `interp1d(..., kind=cubic)` as used by the source: linear when fewer
than 4 nodes (the source falls back to linear itself), else the cubic
spline. -/
noncomputable def cubicEval (l : List (ℝ × ℝ)) (x : ℝ) : ℝ :=
  if l.length < 4 then piecewiseLinear l x
  else splineEvalAux l (naturalSplineM l) x

/-- Map node rates to node discount factors `exp(-tenor * rate)`. -/
noncomputable def toDiscountNodes (l : List (ℝ × ℝ)) : List (ℝ × ℝ) :=
  l.map fun p => (p.1, Real.exp (-(p.1 * p.2)))

/-- Evaluate one (non-hybrid) interpolation method on a node list: the
combination of `_create_single_interpolator` and
`_get_rate_from_interpolator`.  The hybrid case never reaches this
function (construction rejects a hybrid sub-method); it is given an inert
value. -/
noncomputable def methodEval : Method → List (ℝ × ℝ) → ℝ → ℝ
  | .linear, l, x => piecewiseLinear l x
  | .cubic, l, x => cubicEval l x
  | .flat, l, x => stepRate l x
  | .log_linear, l, x => -Real.log (piecewiseLinear (toDiscountNodes l) x) / x
  | .hybrid, _, _ => 0

/-- Split the node list at the cutoff tenor
(`YieldCurve._create_hybrid_interpolators`).  `searchsorted(..., side
right)` on the sorted tenors is the length of the `≤ cutoff` prefix, so
the index arithmetic of the source becomes `takeWhile` / `dropWhile`; when
a node `np.isclose` to the cutoff exists the split duplicates the first
such node, otherwise a node at the cutoff is interpolated linearly and
inserted on both sides. -/
noncomputable def hybridSplit (l : List (ℝ × ℝ)) (cut : ℝ) :
    List (ℝ × ℝ) × List (ℝ × ℝ) :=
  let pre0 := l.takeWhile fun p => p.1 ≤ cut
  let post0 := l.dropWhile fun p => p.1 ≤ cut
  if pre0 = [] then ([], l)
  else if post0 = [] then (l, [])
  else if l.any fun p => npIsCloseB p.1 cut then
    let e := l.findIdx fun p => npIsCloseB p.1 cut
    (l.take (e + 1), l.drop e)
  else
    let cr := piecewiseLinear l cut
    (pre0 ++ [(cut, cr)], (cut, cr) :: post0)

/-- The yield curve record (`YieldCurve.__init__` attributes). -/
structure YieldCurve where
  tenors : List ℝ
  rates : List ℝ
  interpolation_method : Method
  cutoff_tenor : Option ℝ
  pre_cutoff_method : Method
  post_cutoff_method : Method

/-- The zipped node list of a curve. -/
noncomputable def YieldCurve.nodes (c : YieldCurve) : List (ℝ × ℝ) :=
  c.tenors.zip c.rates

/-- `YieldCurve.__init__`: validation (length match, strictly increasing
tenors) followed by interpolator construction, which additionally
requires at least two nodes (`scipy`), and for the hybrid method a cutoff
tenor and non-hybrid sub-methods on every nonempty side
(`_create_single_interpolator` rejects the name hybrid). -/
noncomputable def mkYieldCurve (tenors rates : List ℝ) (method : Method)
    (cutoff : Option ℝ) (pre post : Method) : Except String YieldCurve :=
  if tenors.length ≠ rates.length then
    .error "Tenors and rates must have same length"
  else if ¬ tenors.Chain' (· < ·) then
    .error "Tenors must be strictly increasing"
  else if tenors.length < 2 then
    .error "x and y arrays must have at least 2 entries"
  else
    match method with
    | .hybrid =>
      match cutoff with
      | none => .error "cutoff_tenor must be specified for hybrid interpolation"
      | some cut =>
        let split := hybridSplit (tenors.zip rates) cut
        if (split.1 ≠ [] ∧ pre = .hybrid) ∨ (split.2 ≠ [] ∧ post = .hybrid) then
          .error "Unknown interpolation method: hybrid"
        else
          .ok ⟨tenors, rates, method, cutoff, pre, post⟩
    | _ => .ok ⟨tenors, rates, method, cutoff, pre, post⟩

/-- `YieldCurve.get_rate`. -/
noncomputable def YieldCurve.get_rate (c : YieldCurve) (tenor : ℝ) : ℝ :=
  match c.interpolation_method with
  | .log_linear =>
    -Real.log (piecewiseLinear (toDiscountNodes c.nodes) tenor) / tenor
  | .flat => stepRate c.nodes tenor
  | .hybrid =>
    let cut := c.cutoff_tenor.getD 0
    let split := hybridSplit c.nodes cut
    if tenor ≤ cut then
      if split.1 = [] then methodEval c.post_cutoff_method split.2 tenor
      else methodEval c.pre_cutoff_method split.1 tenor
    else
      if split.2 = [] then methodEval c.pre_cutoff_method split.1 tenor
      else methodEval c.post_cutoff_method split.2 tenor
  | .linear => piecewiseLinear c.nodes tenor
  | .cubic => cubicEval c.nodes tenor

/-- `YieldCurve.get_discount_factor`: `exp(-rate * tenor)`. -/
noncomputable def YieldCurve.get_discount_factor (c : YieldCurve) (tenor : ℝ) : ℝ :=
  Real.exp (-(c.get_rate tenor * tenor))

/-- `YieldCurve.get_forward_rate`: requires `start < end`, then
`log(DF(start) / DF(end)) / (end - start)`. -/
noncomputable def YieldCurve.get_forward_rate (c : YieldCurve)
    (start_tenor end_tenor : ℝ) : Except String ℝ :=
  if start_tenor ≥ end_tenor then
    .error "Start tenor must be less than end tenor"
  else
    .ok (Real.log (c.get_discount_factor start_tenor / c.get_discount_factor end_tenor) /
      (end_tenor - start_tenor))

/-- `YieldCurve.get_par_rate`: coupon grid `{1/f, ..., periods/f}` with
`periods = int(tenor * frequency)`, annuity = sum of the grid discount
factors, then `(1 - DF(tenor)) / annuity * frequency`.  A non-positive
tenor raises; that is the only raise.  When the grid is empty the annuity
is `0.0` and the numpy-float division returns a non-finite value (with a
RuntimeWarning) rather than raising; the real-valued embedding uses
Lean's total division there, and theorems about the returned value are
stated only for a nonempty coupon grid. -/
noncomputable def YieldCurve.get_par_rate (c : YieldCurve) (tenor : ℝ)
    (frequency : ℕ) : Except String ℝ :=
  if tenor ≤ 0 then .error "Tenor must be positive"
  else
    let periods := (⌊tenor * (frequency : ℝ)⌋).toNat
    let coupon_pv := ((List.range periods).map fun i : ℕ =>
      c.get_discount_factor (((i : ℝ) + 1) * (1 / (frequency : ℝ)))).sum
    let principal_pv := c.get_discount_factor tenor
    .ok ((1 - principal_pv) / coupon_pv * (frequency : ℝ))

/-- `YieldCurve.shift_curve`: rebuilds the curve with every rate shifted
by `shift / 10000`, passing only tenors, rates and the interpolation
method to the constructor (the cutoff parameters are left at their
defaults). -/
noncomputable def YieldCurve.shift_curve (c : YieldCurve) (shift : ℝ) :
    Except String YieldCurve :=
  mkYieldCurve c.tenors (c.rates.map fun r => r + shift / 10000) c.interpolation_method
    none .flat .cubic

/-! ## Instruments (`src/core/instruments.py`) -/

/-- The interest-rate swap record (`IRSwap.__init__` attributes). -/
structure IRSwap where
  start_date : ℝ
  maturity : ℝ
  fixed_rate : ℝ
  frequency : ℕ
  notional : ℝ
  day_count : String

/-- `IRSwap._calculate_payment_dates`: starting from
`start_date + 1/frequency` the loop appends `start_date + k/frequency`
while that stays `≤ maturity`; in exact arithmetic the number of loop
iterations is `⌊(maturity - start_date) * frequency⌋`.  The maturity is
appended when the list is empty or its last entry differs from the
maturity by more than `1e-6`. -/
noncomputable def IRSwap.payment_dates (sw : IRSwap) : List ℝ :=
  let period_size := 1 / (sw.frequency : ℝ)
  let k := (⌊(sw.maturity - sw.start_date) * (sw.frequency : ℝ)⌋).toNat
  let ds := (List.range k).map fun i : ℕ => sw.start_date + ((i : ℝ) + 1) * period_size
  if ds = [] ∨ |ds.getLast?.getD 0 - sw.maturity| > 1e-6 then ds ++ [sw.maturity]
  else ds

/-- `IRSwap.__init__`: validation that the start date is before the
maturity.  A zero frequency would make the payment-date computation
divide by zero in Python (`1.0 / frequency`), modelled as an error. -/
noncomputable def mkIRSwap (start_date maturity fixed_rate : ℝ) (frequency : ℕ)
    (notional : ℝ) : Except String IRSwap :=
  if start_date ≥ maturity then .error "Start date must be before maturity"
  else if frequency = 0 then .error "division by zero"
  else .ok ⟨start_date, maturity, fixed_rate, frequency, notional, "30/360"⟩

/-- `IRSwap._price_fixed_leg`: sum of the discounted fixed coupons. -/
noncomputable def IRSwap.price_fixed_leg (sw : IRSwap) (curve : YieldCurve) : ℝ :=
  (sw.payment_dates.map fun payment_date =>
    sw.fixed_rate / (sw.frequency : ℝ) * sw.notional *
      curve.get_discount_factor payment_date).sum

/-- `IRSwap._price_floating_leg`:
`notional * (DF(start_date) - DF(maturity))`. -/
noncomputable def IRSwap.price_floating_leg (sw : IRSwap) (curve : YieldCurve) : ℝ :=
  sw.notional *
    (curve.get_discount_factor sw.start_date - curve.get_discount_factor sw.maturity)

/-- `IRSwap.price`: floating leg minus fixed leg. -/
noncomputable def IRSwap.price (sw : IRSwap) (curve : YieldCurve) : ℝ :=
  sw.price_floating_leg curve - sw.price_fixed_leg curve

/-- The swap annuity of `IRSwap.get_par_rate`:
sum of `DF(payment_date) / frequency`. -/
noncomputable def IRSwap.annuity (sw : IRSwap) (curve : YieldCurve) : ℝ :=
  (sw.payment_dates.map fun payment_date =>
    curve.get_discount_factor payment_date / (sw.frequency : ℝ)).sum

/-- `IRSwap.get_par_rate`: floating-leg PV over annuity times notional,
with an explicit error when the annuity is zero; if the annuity is nonzero
but `annuity * notional` is, the Python float division itself raises
`ZeroDivisionError`, modelled as a second error case. -/
noncomputable def IRSwap.get_par_rate (sw : IRSwap) (curve : YieldCurve) :
    Except String ℝ :=
  if sw.annuity curve = 0 then .error "Annuity is zero - cannot calculate par rate"
  else if sw.annuity curve * sw.notional = 0 then .error "float division by zero"
  else .ok (sw.price_floating_leg curve / (sw.annuity curve * sw.notional))

/-- `IRSwap.get_forward_rate_sensitivity`: nonzero only when the segment
lies inside `[start_date, maturity]`, in which case
`notional * (b - a) * avg(DF(a), DF(b)) * 1e-4`. -/
noncomputable def IRSwap.get_forward_rate_sensitivity (sw : IRSwap)
    (curve : YieldCurve) (start_tenor end_tenor : ℝ) : ℝ :=
  if sw.start_date ≤ start_tenor ∧ end_tenor ≤ sw.maturity then
    sw.notional * (end_tenor - start_tenor) *
      ((curve.get_discount_factor start_tenor + curve.get_discount_factor end_tenor) / 2) *
      1e-4
  else 0

/-- The interest-rate future record (`IRFuture.__init__` attributes): no
validation is performed at construction. -/
structure IRFuture where
  start_date : ℝ
  maturity : ℝ
  notional : ℝ
  contract_size : ℝ

/-- `IRFuture.__init__` simply stores its arguments. -/
def mkIRFuture (start_date maturity notional contract_size : ℝ) : IRFuture :=
  ⟨start_date, maturity, notional, contract_size⟩

/-- `IRFuture.price`: `100 - 100 * forward_rate`, scaled by contract size
and notional; fails exactly when the forward-rate query fails. -/
noncomputable def IRFuture.price (fut : IRFuture) (curve : YieldCurve) :
    Except String ℝ :=
  (curve.get_forward_rate fut.start_date fut.maturity).map fun forward_rate =>
    (100 - forward_rate * 100) * fut.contract_size * fut.notional

/-- `IRFuture.get_cashflows`: the settlement amount at maturity; fails
exactly when the forward-rate query fails. -/
noncomputable def IRFuture.get_cashflows (fut : IRFuture) (curve : YieldCurve) :
    Except String (List ℝ × List ℝ) :=
  (curve.get_forward_rate fut.start_date fut.maturity).map fun forward_rate =>
    ([fut.maturity], [(100 - forward_rate * 100) * fut.contract_size * fut.notional])

/-! ## Helper lemmas -/

theorem mkYieldCurve_ok_elim {ts rs : List ℝ} {meth : Method} {cut : Option ℝ}
    {pre post : Method} {c : YieldCurve}
    (h : mkYieldCurve ts rs meth cut pre post = .ok c) :
    c = ⟨ts, rs, meth, cut, pre, post⟩ ∧ ts.length = rs.length ∧
      ts.Chain' (· < ·) ∧ 2 ≤ ts.length := by
  unfold mkYieldCurve at h
  by_cases h1 : ts.length ≠ rs.length
  · rw [if_pos h1] at h; cases h
  rw [if_neg h1] at h
  by_cases h2 : ¬ ts.Chain' (· < ·)
  · rw [if_pos h2] at h; cases h
  rw [if_neg h2] at h
  by_cases h3 : ts.length < 2
  · rw [if_pos h3] at h; cases h
  rw [if_neg h3] at h
  refine ⟨?_, not_not.mp h1, not_not.mp h2, not_lt.mp h3⟩
  cases meth with
  | hybrid =>
    cases cut with
    | none => cases h
    | some cv =>
      simp only [ne_eq] at h
      split_ifs at h with h4
      exact (Except.ok.inj h).symm
  | linear => exact (Except.ok.inj h).symm
  | cubic => exact (Except.ok.inj h).symm
  | log_linear => exact (Except.ok.inj h).symm
  | flat => exact (Except.ok.inj h).symm

theorem mkYieldCurve_ok_of {ts rs : List ℝ} {meth : Method} {cut : Option ℝ}
    {pre post : Method} (hlen : ts.length = rs.length)
    (hchain : ts.Chain' (· < ·)) (hlen2 : 2 ≤ ts.length)
    (hmeth : meth ≠ .hybrid) :
    mkYieldCurve ts rs meth cut pre post = .ok ⟨ts, rs, meth, cut, pre, post⟩ := by
  unfold mkYieldCurve
  rw [if_neg (not_not.mpr hlen), if_neg (not_not.mpr hchain), if_neg (not_lt.mpr hlen2)]
  cases meth with
  | hybrid => exact absurd rfl hmeth
  | linear => rfl
  | cubic => rfl
  | log_linear => rfl
  | flat => rfl

theorem chain'_fst_zip {ts : List ℝ} (rs : List ℝ) (h : ts.Chain' (· < ·)) :
    (ts.zip rs).Chain' (fun p q => p.1 < q.1) := by
  induction ts generalizing rs with
  | nil => simp
  | cons a ts ih =>
    cases rs with
    | nil => simp
    | cons b rs =>
      rw [List.zip_cons_cons]
      rw [List.chain'_cons']
      refine ⟨?_, ih rs h.tail⟩
      intro q hq
      cases ts with
      | nil => simp at hq
      | cons a2 ts2 =>
        cases rs with
        | nil => simp at hq
        | cons b2 rs2 =>
          rw [List.zip_cons_cons, List.head?_cons] at hq
          cases hq
          exact List.chain'_cons.mp h |>.1

theorem zip_getLast? {α β : Type} {ts : List α} {rs : List β}
    (hlen : ts.length = rs.length) {a : α} {b : β}
    (ha : ts.getLast? = some a) (hb : rs.getLast? = some b) :
    (ts.zip rs).getLast? = some (a, b) := by
  induction ts generalizing rs with
  | nil => cases ha
  | cons x ts ih =>
    cases rs with
    | nil => cases hb
    | cons y rs =>
      cases ts with
      | nil =>
        cases rs with
        | nil =>
          simp only [List.getLast?_singleton, Option.some.injEq] at ha hb
          simp [ha, hb]
        | cons y2 rs2 => simp at hlen
      | cons x2 ts2 =>
        cases rs with
        | nil => simp at hlen
        | cons y2 rs2 =>
          have hlen2 : (x2 :: ts2).length = (y2 :: rs2).length := by
            simpa using hlen
          rw [List.getLast?_cons_cons] at ha hb
          rw [List.zip_cons_cons, List.zip_cons_cons, List.getLast?_cons_cons,
            ← List.zip_cons_cons]
          exact ih hlen2 ha hb

/-- In a node list with strictly increasing first components, every entry's
first component is at most that of the last entry. -/
theorem chain'_fst_le_last {l : List (ℝ × ℝ)}
    (hs : l.Chain' (fun p q => p.1 < q.1)) {p : ℝ × ℝ}
    (hl : l.getLast? = some p) : ∀ q ∈ l, q.1 ≤ p.1 := by
  induction l with
  | nil => cases hl
  | cons a l ih =>
    cases l with
    | nil =>
      simp only [List.getLast?_singleton, Option.some.injEq] at hl
      intro q hq
      rcases List.mem_singleton.mp hq with rfl
      exact hl ▸ le_refl _
    | cons b l2 =>
      rw [List.getLast?_cons_cons] at hl
      intro q hq
      rcases List.mem_cons.mp hq with rfl | hq
      · have hb : b.1 ≤ p.1 := ih hs.tail hl b (List.mem_cons_self _ _)
        exact le_of_lt (lt_of_lt_of_le (List.chain'_cons.mp hs).1 hb)
      · exact ih hs.tail hl q hq

/-- In a node list with strictly increasing first components, the head's
first component is at most that of every entry. -/
theorem chain'_fst_head_le {a : ℝ × ℝ} {l : List (ℝ × ℝ)}
    (hs : (a :: l).Chain' (fun p q => p.1 < q.1)) :
    ∀ q ∈ a :: l, a.1 ≤ q.1 := by
  induction l generalizing a with
  | nil =>
    intro q hq
    rcases List.mem_singleton.mp hq with rfl
    exact le_refl _
  | cons b l2 ih =>
    intro q hq
    rcases List.mem_cons.mp hq with rfl | hq
    · exact le_refl _
    · exact le_of_lt (lt_of_lt_of_le (List.chain'_cons.mp hs).1 (ih hs.tail q hq))

theorem stepRate_cons_cons (u v : ℝ × ℝ) (l : List (ℝ × ℝ)) (x : ℝ) :
    stepRate (u :: v :: l) x = if x < v.1 then u.2 else stepRate (v :: l) x := rfl

theorem stepRate_head {l : List (ℝ × ℝ)} {t0 y0 : ℝ}
    (hs : l.Chain' (fun p q => p.1 < q.1)) (hh : l.head? = some (t0, y0))
    {x : ℝ} (hx : x ≤ t0) : stepRate l x = y0 := by
  cases l with
  | nil => cases hh
  | cons a l =>
    rw [List.head?_cons, Option.some.injEq] at hh
    subst hh
    cases l with
    | nil => rfl
    | cons b l2 =>
      have hab : (t0, y0).1 < b.1 := (List.chain'_cons.mp hs).1
      rw [stepRate_cons_cons, if_pos (lt_of_le_of_lt hx hab)]

theorem stepRate_last {l : List (ℝ × ℝ)} {tn yn : ℝ}
    (hs : l.Chain' (fun p q => p.1 < q.1)) (hl : l.getLast? = some (tn, yn))
    {x : ℝ} (hx : tn ≤ x) : stepRate l x = yn := by
  induction l with
  | nil => cases hl
  | cons a l ih =>
    cases l with
    | nil =>
      simp only [List.getLast?_singleton, Option.some.injEq] at hl
      subst hl
      rfl
    | cons b l2 =>
      rw [List.getLast?_cons_cons] at hl
      have hb : b.1 ≤ tn :=
        chain'_fst_le_last hs.tail hl b (List.mem_cons_self _ _)
      rw [stepRate_cons_cons, if_neg (not_lt.mpr (le_trans hb hx))]
      exact ih hs.tail hl

theorem stepRate_mid {l : List (ℝ × ℝ)} {p q : ℝ × ℝ}
    (hs : l.Chain' (fun r r2 => r.1 < r2.1)) (hpq : (p, q) ∈ l.zip l.tail)
    {x : ℝ} (h1 : p.1 ≤ x) (h2 : x < q.1) : stepRate l x = p.2 := by
  induction l with
  | nil => cases hpq
  | cons a l ih =>
    cases l with
    | nil => cases hpq
    | cons b l2 =>
      rw [show (a :: b :: l2).tail = b :: l2 from rfl, List.zip_cons_cons] at hpq
      rcases List.mem_cons.mp hpq with heq | hpq
      · obtain ⟨rfl, rfl⟩ := Prod.mk.inj heq.symm
        rw [stepRate_cons_cons, if_pos h2]
      · have hmem : p ∈ b :: l2 := (List.of_mem_zip hpq).1
        have hb : b.1 ≤ p.1 := chain'_fst_head_le hs.tail p hmem
        rw [stepRate_cons_cons, if_neg (not_lt.mpr (le_trans hb h1))]
        exact ih hs.tail hpq

/-! ## Claim theorems -/

/-- C2: for every swap and curve, the price equals the floating-leg value
`notional * (DF(start_date) - DF(maturity))` minus the fixed-leg value,
the sum over the payment dates of
`(fixed_rate / frequency) * notional * DF(payment_date)`. -/
theorem C2_swap_price (curve : YieldCurve) (sw : IRSwap) :
    sw.price curve =
      sw.notional * (curve.get_discount_factor sw.start_date -
        curve.get_discount_factor sw.maturity) -
      (sw.payment_dates.map fun payment_date =>
        sw.fixed_rate / (sw.frequency : ℝ) * sw.notional *
          curve.get_discount_factor payment_date).sum := rfl

/-- C7: the forward-rate sensitivity of a swap to a segment `[a, b]` is
`notional * (b - a) * avg(DF(a), DF(b)) * 1e-4` when
`start_date ≤ a` and `b ≤ maturity`, and exactly `0` otherwise; in
particular the forward swap `(2.0, 5.0, 0.04)` has zero sensitivity to the
segments `(5.0, 7.0)` and `(0.0, 1.0)` under every curve. -/
theorem C7_forward_rate_sensitivity (curve : YieldCurve) (sw sw25 : IRSwap)
    (a b : ℝ) (h25 : mkIRSwap 2 5 (4 / 100) 2 1 = .ok sw25) :
    (sw.start_date ≤ a ∧ b ≤ sw.maturity →
      sw.get_forward_rate_sensitivity curve a b =
        sw.notional * (b - a) *
          ((curve.get_discount_factor a + curve.get_discount_factor b) / 2) * 1e-4) ∧
    (¬ (sw.start_date ≤ a ∧ b ≤ sw.maturity) →
      sw.get_forward_rate_sensitivity curve a b = 0) ∧
    sw25.get_forward_rate_sensitivity curve 5 7 = 0 ∧
    sw25.get_forward_rate_sensitivity curve 0 1 = 0 := by
  obtain rfl : sw25 = ⟨2, 5, 4 / 100, 2, 1, "30/360"⟩ := by
    unfold mkIRSwap at h25
    rw [if_neg (by norm_num), if_neg (by norm_num)] at h25
    exact (Except.ok.inj h25).symm
  refine ⟨fun h => ?_, fun h => ?_, ?_, ?_⟩
  · rw [IRSwap.get_forward_rate_sensitivity, if_pos h]
  · rw [IRSwap.get_forward_rate_sensitivity, if_neg h]
  · rw [IRSwap.get_forward_rate_sensitivity, if_neg (by norm_num)]
  · rw [IRSwap.get_forward_rate_sensitivity, if_neg (by norm_num)]

/-- C7 witness: instantiation at the forward swap `(2.0, 5.0, 0.04)`, the
segment `(5.0, 7.0)` and a concrete two-node curve. -/
theorem C7_forward_rate_sensitivity_witness :
    mkIRSwap 2 5 (4 / 100) 2 1 = .ok ⟨2, 5, 4 / 100, 2, 1, "30/360"⟩ ∧
    ((⟨2, 5, 4 / 100, 2, 1, "30/360"⟩ : IRSwap).get_forward_rate_sensitivity
        ⟨[1, 2], [5 / 100, 6 / 100], .linear, none, .flat, .cubic⟩ 5 7 = 0 ∧
      (⟨2, 5, 4 / 100, 2, 1, "30/360"⟩ : IRSwap).get_forward_rate_sensitivity
        ⟨[1, 2], [5 / 100, 6 / 100], .linear, none, .flat, .cubic⟩ 0 1 = 0) := by
  have hmk : mkIRSwap 2 5 (4 / 100) 2 1 = .ok ⟨2, 5, 4 / 100, 2, 1, "30/360"⟩ := by
    unfold mkIRSwap
    rw [if_neg (by norm_num), if_neg (by norm_num)]
  have h := C7_forward_rate_sensitivity
    ⟨[1, 2], [5 / 100, 6 / 100], .linear, none, .flat, .cubic⟩
    ⟨2, 5, 4 / 100, 2, 1, "30/360"⟩ ⟨2, 5, 4 / 100, 2, 1, "30/360"⟩ 5 7 hmk
  exact ⟨hmk, h.2.2⟩

/-- C10: an `IRFuture` is constructed without any `start < maturity`
validation, the invalid-range error surfacing only when `price` or
`get_cashflows` queries the forward rate (exactly when
`maturity ≤ start_date`), whereas the `IRSwap` constructor rejects
`start_date ≥ maturity` immediately. -/
theorem C10_future_no_validation (s m notional cs fr : ℝ) (f : ℕ)
    (c : YieldCurve) :
    mkIRFuture s m notional cs = ⟨s, m, notional, cs⟩ ∧
    ((mkIRFuture s m notional cs).price c =
        .error "Start tenor must be less than end tenor" ↔ m ≤ s) ∧
    ((mkIRFuture s m notional cs).get_cashflows c =
        .error "Start tenor must be less than end tenor" ↔ m ≤ s) ∧
    (m ≤ s → mkIRSwap s m fr f notional = .error "Start date must be before maturity") := by
  refine ⟨rfl, ?_, ?_, fun h => ?_⟩
  · unfold IRFuture.price YieldCurve.get_forward_rate
    simp only [mkIRFuture]
    by_cases h : s ≥ m
    · rw [if_pos h]
      simpa [Except.map] using h
    · rw [if_neg h]
      simpa [Except.map] using h
  · unfold IRFuture.get_cashflows YieldCurve.get_forward_rate
    simp only [mkIRFuture]
    by_cases h : s ≥ m
    · rw [if_pos h]
      simpa [Except.map] using h
    · rw [if_neg h]
      simpa [Except.map] using h
  · unfold mkIRSwap
    rw [if_pos (ge_iff_le.mpr h)]

/-- C10 witness: instantiation at a future with `start_date = 3` after its
`maturity = 2`, a swap attempt on the same dates, and a concrete curve. -/
theorem C10_future_no_validation_witness :
    mkIRFuture 3 2 1 1 = ⟨3, 2, 1, 1⟩ ∧
    ((mkIRFuture 3 2 1 1).price
        ⟨[1, 2], [5 / 100, 6 / 100], .linear, none, .flat, .cubic⟩ =
        .error "Start tenor must be less than end tenor" ↔ (2 : ℝ) ≤ 3) ∧
    ((mkIRFuture 3 2 1 1).get_cashflows
        ⟨[1, 2], [5 / 100, 6 / 100], .linear, none, .flat, .cubic⟩ =
        .error "Start tenor must be less than end tenor" ↔ (2 : ℝ) ≤ 3) ∧
    ((2 : ℝ) ≤ 3 →
      mkIRSwap 3 2 (4 / 100) 2 1 = .error "Start date must be before maturity") :=
  C10_future_no_validation 3 2 1 1 (4 / 100) 2
    ⟨[1, 2], [5 / 100, 6 / 100], .linear, none, .flat, .cubic⟩

/-- C1 counterexample: shifting a HYBRID-mode curve does not succeed — the
constructor call inside `shift_curve` omits the cutoff parameters, so it
fails with the missing-cutoff validation error. -/
theorem C1_shift_counterexample :
    (mkYieldCurve [1, 2, 3] [5 / 100, 6 / 100, 7 / 100] .hybrid (some 2)
        .flat .linear).bind (fun c => c.shift_curve 10) =
      .error "cutoff_tenor must be specified for hybrid interpolation" := by
  have hmk : mkYieldCurve [1, 2, 3] [5 / 100, 6 / 100, 7 / 100] .hybrid (some 2)
      .flat .linear = .ok ⟨[1, 2, 3], [5 / 100, 6 / 100, 7 / 100], .hybrid, some 2,
        .flat, .linear⟩ := by
    unfold mkYieldCurve
    rw [if_neg (by norm_num), if_neg (by
      simp only [not_not, List.chain'_cons, List.chain'_singleton, and_true]
      norm_num), if_neg (by norm_num)]
    simp only [ne_eq]
    rw [if_neg (by simp)]
  rw [hmk]
  show (⟨[1, 2, 3], [5 / 100, 6 / 100, 7 / 100], .hybrid, some 2, .flat,
    .linear⟩ : YieldCurve).shift_curve 10 = _
  unfold YieldCurve.shift_curve mkYieldCurve
  rw [if_neg (by norm_num), if_neg (by
    simp only [not_not, List.chain'_cons, List.chain'_singleton, and_true]
    norm_num), if_neg (by norm_num)]

/-- C1 (amended): for every successfully constructed non-HYBRID curve,
`shift_curve(bp)` succeeds and returns a new curve with the same tenors,
each rate increased by `bp / 10000`, and the same interpolation mode, but
with the hybrid cutoff parameters reset to their constructor defaults
(`cutoff_tenor = none`, pre-cutoff flat, post-cutoff cubic); shifting a
HYBRID-mode curve fails with the missing-cutoff validation error.  The
original curve is a value and is unchanged. -/
theorem C1_shift_curve (ts rs : List ℝ) (meth : Method) (cut : Option ℝ)
    (pre post : Method) (c : YieldCurve) (bp : ℝ)
    (hmk : mkYieldCurve ts rs meth cut pre post = .ok c) :
    (meth ≠ .hybrid →
      c.shift_curve bp =
        .ok ⟨ts, rs.map fun r => r + bp / 10000, meth, none, .flat, .cubic⟩) ∧
    (meth = .hybrid →
      c.shift_curve bp =
        .error "cutoff_tenor must be specified for hybrid interpolation") := by
  obtain ⟨rfl, hlen, hchain, hlen2⟩ := mkYieldCurve_ok_elim hmk
  constructor
  · intro hmeth
    unfold YieldCurve.shift_curve
    exact mkYieldCurve_ok_of (by simpa using hlen) hchain hlen2 hmeth
  · intro hmeth
    subst hmeth
    unfold YieldCurve.shift_curve mkYieldCurve
    rw [if_neg (by simpa using not_not.mpr hlen), if_neg (not_not.mpr hchain),
      if_neg (not_lt.mpr hlen2)]

/-- C1 witness: instantiation at a concrete two-node linear curve and a
10bp shift. -/
theorem C1_shift_curve_witness :
    mkYieldCurve [1, 2] [5 / 100, 6 / 100] .linear none .flat .cubic =
      .ok ⟨[1, 2], [5 / 100, 6 / 100], .linear, none, .flat, .cubic⟩ ∧
    ((Method.linear ≠ .hybrid →
      (⟨[1, 2], [5 / 100, 6 / 100], .linear, none, .flat, .cubic⟩ :
          YieldCurve).shift_curve 10 =
        .ok ⟨[1, 2], [5 / 100, 6 / 100].map fun r => r + 10 / 10000, .linear,
          none, .flat, .cubic⟩) ∧
    (Method.linear = .hybrid →
      (⟨[1, 2], [5 / 100, 6 / 100], .linear, none, .flat, .cubic⟩ :
          YieldCurve).shift_curve 10 =
        .error "cutoff_tenor must be specified for hybrid interpolation")) := by
  have hmk : mkYieldCurve [1, 2] [5 / 100, 6 / 100] .linear none .flat .cubic =
      .ok ⟨[1, 2], [5 / 100, 6 / 100], .linear, none, .flat, .cubic⟩ :=
    mkYieldCurve_ok_of (by norm_num) (by
      simp only [List.chain'_cons, List.chain'_singleton, and_true]
      norm_num) (by norm_num) (by simp)
  exact ⟨hmk, C1_shift_curve [1, 2] [5 / 100, 6 / 100] .linear none .flat .cubic
    _ 10 hmk⟩

/-- C8: on a FLAT-mode curve `get_rate` returns the first rate at or below
the first tenor, the last rate at or beyond the last tenor, and otherwise
the rate of the left node of the adjacent node pair whose half-open span
contains the tenor (the largest node `≤ tenor`); on the example curve,
`get_rate 0.75 = 0.0525` and `get_rate 10 = 0.065`. -/
theorem C8_flat_get_rate (ts rs : List ℝ) (cut : Option ℝ) (pre post : Method)
    (c c' : YieldCurve) (x : ℝ) (pq : (ℝ × ℝ) × ℝ × ℝ)
    (hmk : mkYieldCurve ts rs .flat cut pre post = .ok c)
    (hpq : pq ∈ c.nodes.zip c.nodes.tail)
    (hmk' : mkYieldCurve [0.25, 0.5, 1, 2, 5] [0.05, 0.0525, 0.055, 0.06, 0.065]
      .flat none .flat .cubic = .ok c') :
    (x ≤ ts.head?.getD 0 → c.get_rate x = rs.head?.getD 0) ∧
    (ts.getLast?.getD 0 ≤ x → c.get_rate x = rs.getLast?.getD 0) ∧
    (pq.1.1 ≤ x → x < pq.2.1 → c.get_rate x = pq.1.2) ∧
    c'.get_rate 0.75 = 0.0525 ∧ c'.get_rate 10 = 0.065 := by
  obtain ⟨rfl, hlen, hchain, hlen2⟩ := mkYieldCurve_ok_elim hmk
  obtain ⟨rfl, -, -, -⟩ := mkYieldCurve_ok_elim hmk'
  have hzs : (ts.zip rs).Chain' (fun p q => p.1 < q.1) := chain'_fst_zip rs hchain
  refine ⟨?_, ?_, ?_, ?_, ?_⟩
  · intro hx
    cases ts with
    | nil => simp at hlen2
    | cons a ts2 =>
      cases rs with
      | nil => simp at hlen
      | cons b rs2 =>
        exact stepRate_head hzs (by simp) hx
  · intro hx
    cases ts with
    | nil => simp at hlen2
    | cons a ts2 =>
      cases rs with
      | nil => simp at hlen
      | cons b rs2 =>
        obtain ⟨tn, htn⟩ : ∃ tn, (a :: ts2).getLast? = some tn :=
          Option.isSome_iff_exists.mp (by rw [List.getLast?_isSome]; simp)
        obtain ⟨rn, hrn⟩ : ∃ rn, (b :: rs2).getLast? = some rn :=
          Option.isSome_iff_exists.mp (by rw [List.getLast?_isSome]; simp)
        rw [htn] at hx
        rw [hrn]
        exact stepRate_last hzs (zip_getLast? hlen htn hrn) hx
  · intro h1 h2
    exact stepRate_mid hzs hpq h1 h2
  · show stepRate ([(0.25 : ℝ), 0.5, 1, 2, 5].zip
      [(0.05 : ℝ), 0.0525, 0.055, 0.06, 0.065]) 0.75 = 0.0525
    rw [List.zip_cons_cons, List.zip_cons_cons, List.zip_cons_cons,
      List.zip_cons_cons, List.zip_cons_cons]
    rw [stepRate_cons_cons, if_neg (by norm_num), stepRate_cons_cons,
      if_pos (by norm_num)]
  · show stepRate ([(0.25 : ℝ), 0.5, 1, 2, 5].zip
      [(0.05 : ℝ), 0.0525, 0.055, 0.06, 0.065]) 10 = 0.065
    rw [List.zip_cons_cons, List.zip_cons_cons, List.zip_cons_cons,
      List.zip_cons_cons, List.zip_cons_cons]
    rw [stepRate_cons_cons, if_neg (by norm_num), stepRate_cons_cons,
      if_neg (by norm_num), stepRate_cons_cons, if_neg (by norm_num),
      stepRate_cons_cons, if_neg (by norm_num)]
    rfl

/-- C8 witness: instantiation at the example FLAT curve, `x = 0.75` and
the adjacent node pair `((0.5, 0.0525), (1, 0.055))`. -/
theorem C8_flat_get_rate_witness :
    mkYieldCurve [0.25, 0.5, 1, 2, 5] [0.05, 0.0525, 0.055, 0.06, 0.065]
        .flat none .flat .cubic =
      .ok ⟨[0.25, 0.5, 1, 2, 5], [0.05, 0.0525, 0.055, 0.06, 0.065], .flat,
        none, .flat, .cubic⟩ ∧
    (((0.5 : ℝ), (0.0525 : ℝ)), ((1 : ℝ), (0.055 : ℝ))) ∈
      (⟨[0.25, 0.5, 1, 2, 5], [0.05, 0.0525, 0.055, 0.06, 0.065], .flat,
        none, .flat, .cubic⟩ : YieldCurve).nodes.zip
        (⟨[0.25, 0.5, 1, 2, 5], [0.05, 0.0525, 0.055, 0.06, 0.065], .flat,
          none, .flat, .cubic⟩ : YieldCurve).nodes.tail ∧
    ((0.5 : ℝ) ≤ 0.75 → (0.75 : ℝ) < 1 →
      (⟨[0.25, 0.5, 1, 2, 5], [0.05, 0.0525, 0.055, 0.06, 0.065], .flat,
        none, .flat, .cubic⟩ : YieldCurve).get_rate 0.75 = 0.0525) := by
  have hmk : mkYieldCurve [0.25, 0.5, 1, 2, 5] [0.05, 0.0525, 0.055, 0.06, 0.065]
      .flat none .flat .cubic =
      .ok ⟨[0.25, 0.5, 1, 2, 5], [0.05, 0.0525, 0.055, 0.06, 0.065], .flat,
        none, .flat, .cubic⟩ :=
    mkYieldCurve_ok_of (by norm_num) (by
      simp only [List.chain'_cons, List.chain'_singleton, and_true]
      norm_num) (by norm_num) (by simp)
  have hpq : (((0.5 : ℝ), (0.0525 : ℝ)), ((1 : ℝ), (0.055 : ℝ))) ∈
      (⟨[0.25, 0.5, 1, 2, 5], [0.05, 0.0525, 0.055, 0.06, 0.065], .flat,
        none, .flat, .cubic⟩ : YieldCurve).nodes.zip
        (⟨[0.25, 0.5, 1, 2, 5], [0.05, 0.0525, 0.055, 0.06, 0.065], .flat,
          none, .flat, .cubic⟩ : YieldCurve).nodes.tail := by
    show _ ∈ ([((0.25 : ℝ), (0.05 : ℝ)), (0.5, 0.0525), (1, 0.055), (2, 0.06),
      (5, 0.065)]).zip [((0.5 : ℝ), (0.0525 : ℝ)), (1, 0.055), (2, 0.06), (5, 0.065)]
    simp
  exact ⟨hmk, hpq,
    (C8_flat_get_rate [0.25, 0.5, 1, 2, 5] [0.05, 0.0525, 0.055, 0.06, 0.065]
      none .flat .cubic _ _ 0.75 _ hmk hpq hmk).2.2.1⟩

theorem mkIRSwap_ok_elim {s m fr : ℝ} {f : ℕ} {N : ℝ} {sw : IRSwap}
    (h : mkIRSwap s m fr f N = .ok sw) :
    sw = ⟨s, m, fr, f, N, "30/360"⟩ ∧ s < m ∧ f ≠ 0 := by
  unfold mkIRSwap at h
  by_cases h1 : s ≥ m
  · rw [if_pos h1] at h; cases h
  rw [if_neg h1] at h
  by_cases h2 : f = 0
  · rw [if_pos h2] at h; cases h
  rw [if_neg h2] at h
  exact ⟨(Except.ok.inj h).symm, not_le.mp h1, h2⟩

theorem payment_dates_ne_nil (sw : IRSwap) : sw.payment_dates ≠ [] := by
  unfold IRSwap.payment_dates
  simp only []
  split_ifs with h
  · simp
  · rw [not_or] at h
    exact h.1

theorem annuity_pos (sw : IRSwap) (c : YieldCurve) (hf : sw.frequency ≠ 0) :
    0 < sw.annuity c := by
  unfold IRSwap.annuity
  apply List.sum_pos
  · intro x hx
    rcases List.mem_map.mp hx with ⟨d, _, rfl⟩
    exact div_pos (Real.exp_pos _) (by positivity)
  · simp only [ne_eq, List.map_eq_nil_iff]
    exact payment_dates_ne_nil sw

theorem fixed_leg_eq (sw : IRSwap) (c : YieldCurve) :
    sw.price_fixed_leg c = sw.fixed_rate * sw.notional * sw.annuity c := by
  unfold IRSwap.price_fixed_leg IRSwap.annuity
  generalize sw.payment_dates = l
  induction l with
  | nil => simp
  | cons d ds ih =>
    simp only [List.map_cons, List.sum_cons, ih]
    ring

/-- C3: the swap-level par rate is the floating-leg PV divided by
`annuity * notional`, the domain error is raised exactly when the annuity
is zero, and a swap re-struck at the returned par rate (same start,
maturity, frequency and notional) reprices to within `1e-4` of zero. -/
theorem C3_swap_par_rate (c : YieldCurve) (s m fr : ℝ) (f : ℕ) (N : ℝ)
    (sw sw' : IRSwap) (r : ℝ)
    (hmk : mkIRSwap s m fr f N = .ok sw) (hN : 0 < N) :
    ((∃ e, sw.get_par_rate c = .error e) ↔ sw.annuity c = 0) ∧
    (sw.get_par_rate c = .ok r →
      r = sw.price_floating_leg c / (sw.annuity c * sw.notional)) ∧
    (sw.get_par_rate c = .ok r → mkIRSwap s m r f N = .ok sw' →
      |sw'.price c| ≤ 1e-4) := by
  obtain ⟨rfl, hsm, hf⟩ := mkIRSwap_ok_elim hmk
  have hA : (0 : ℝ) < IRSwap.annuity ⟨s, m, fr, f, N, "30/360"⟩ c :=
    annuity_pos _ c hf
  have hAN : IRSwap.annuity ⟨s, m, fr, f, N, "30/360"⟩ c * N ≠ 0 :=
    mul_ne_zero (ne_of_gt hA) (ne_of_gt hN)
  have hok : IRSwap.get_par_rate ⟨s, m, fr, f, N, "30/360"⟩ c =
      .ok (IRSwap.price_floating_leg ⟨s, m, fr, f, N, "30/360"⟩ c /
        (IRSwap.annuity ⟨s, m, fr, f, N, "30/360"⟩ c * N)) := by
    unfold IRSwap.get_par_rate
    rw [if_neg (ne_of_gt hA), if_neg hAN]
  refine ⟨?_, ?_, ?_⟩
  · rw [hok]
    constructor
    · rintro ⟨e, he⟩
      cases he
    · intro h
      exact absurd h (ne_of_gt hA)
  · intro h
    rw [hok] at h
    exact (Except.ok.inj h).symm
  · intro h hmk'
    rw [hok] at h
    obtain rfl := (Except.ok.inj h).symm
    obtain ⟨rfl, -, -⟩ := mkIRSwap_ok_elim hmk'
    have hpd : IRSwap.payment_dates
        ⟨s, m, IRSwap.price_floating_leg ⟨s, m, fr, f, N, "30/360"⟩ c /
          (IRSwap.annuity ⟨s, m, fr, f, N, "30/360"⟩ c * N), f, N, "30/360"⟩ =
        IRSwap.payment_dates ⟨s, m, fr, f, N, "30/360"⟩ := rfl
    have hann : IRSwap.annuity
        ⟨s, m, IRSwap.price_floating_leg ⟨s, m, fr, f, N, "30/360"⟩ c /
          (IRSwap.annuity ⟨s, m, fr, f, N, "30/360"⟩ c * N), f, N, "30/360"⟩ c =
        IRSwap.annuity ⟨s, m, fr, f, N, "30/360"⟩ c := rfl
    have hfl : IRSwap.price_floating_leg
        ⟨s, m, IRSwap.price_floating_leg ⟨s, m, fr, f, N, "30/360"⟩ c /
          (IRSwap.annuity ⟨s, m, fr, f, N, "30/360"⟩ c * N), f, N, "30/360"⟩ c =
        IRSwap.price_floating_leg ⟨s, m, fr, f, N, "30/360"⟩ c := rfl
    have hprice : IRSwap.price
        ⟨s, m, IRSwap.price_floating_leg ⟨s, m, fr, f, N, "30/360"⟩ c /
          (IRSwap.annuity ⟨s, m, fr, f, N, "30/360"⟩ c * N), f, N, "30/360"⟩ c = 0 := by
      unfold IRSwap.price
      rw [fixed_leg_eq, hann, hfl]
      field_simp
      ring
    rw [hprice]
    norm_num

/-- C3 witness: instantiation at a concrete flat curve and the one-period
spot swap `(0, 1, 0.05)` with annual frequency and unit notional. -/
theorem C3_swap_par_rate_witness :
    mkIRSwap 0 1 (5 / 100) 1 1 = .ok ⟨0, 1, 5 / 100, 1, 1, "30/360"⟩ ∧
    (0 : ℝ) < 1 ∧
    (((∃ e, (⟨0, 1, 5 / 100, 1, 1, "30/360"⟩ : IRSwap).get_par_rate
        ⟨[1, 2], [5 / 100, 6 / 100], .flat, none, .flat, .cubic⟩ = .error e) ↔
      (⟨0, 1, 5 / 100, 1, 1, "30/360"⟩ : IRSwap).annuity
        ⟨[1, 2], [5 / 100, 6 / 100], .flat, none, .flat, .cubic⟩ = 0) ∧
    ((⟨0, 1, 5 / 100, 1, 1, "30/360"⟩ : IRSwap).get_par_rate
        ⟨[1, 2], [5 / 100, 6 / 100], .flat, none, .flat, .cubic⟩ = .ok 0 →
      (0 : ℝ) = (⟨0, 1, 5 / 100, 1, 1, "30/360"⟩ : IRSwap).price_floating_leg
          ⟨[1, 2], [5 / 100, 6 / 100], .flat, none, .flat, .cubic⟩ /
        ((⟨0, 1, 5 / 100, 1, 1, "30/360"⟩ : IRSwap).annuity
            ⟨[1, 2], [5 / 100, 6 / 100], .flat, none, .flat, .cubic⟩ *
          (⟨0, 1, 5 / 100, 1, 1, "30/360"⟩ : IRSwap).notional)) ∧
    ((⟨0, 1, 5 / 100, 1, 1, "30/360"⟩ : IRSwap).get_par_rate
        ⟨[1, 2], [5 / 100, 6 / 100], .flat, none, .flat, .cubic⟩ = .ok 0 →
      mkIRSwap 0 1 0 1 1 = .ok ⟨0, 1, 0, 1, 1, "30/360"⟩ →
      |(⟨0, 1, 0, 1, 1, "30/360"⟩ : IRSwap).price
          ⟨[1, 2], [5 / 100, 6 / 100], .flat, none, .flat, .cubic⟩| ≤ 1e-4)) := by
  have hmk : mkIRSwap 0 1 (5 / 100) 1 1 = .ok ⟨0, 1, 5 / 100, 1, 1, "30/360"⟩ := by
    unfold mkIRSwap
    rw [if_neg (by norm_num), if_neg (by norm_num)]
  exact ⟨hmk, by norm_num,
    C3_swap_par_rate ⟨[1, 2], [5 / 100, 6 / 100], .flat, none, .flat, .cubic⟩
      0 1 (5 / 100) 1 1 _ ⟨0, 1, 0, 1, 1, "30/360"⟩ 0 hmk (by norm_num)⟩

/-- C6 (amended): the curve-level par rate raises a domain error exactly
when `tenor ≤ 0` (with an empty coupon grid the numpy division by the
zero annuity returns a non-finite value, never raising), and whenever the
coupon grid is nonempty (`tenor * frequency ≥ 1`) the returned value
`par_rate` satisfies `par_rate / frequency = (1 - DF(tenor)) / annuity`
with the annuity the plain sum of grid discount factors. -/
theorem C6_curve_par_rate (c : YieldCurve) (tenor : ℝ) (f : ℕ) (r : ℝ)
    (hf : 0 < f) :
    ((∃ e, c.get_par_rate tenor f = .error e) ↔ tenor ≤ 0) ∧
    ((1 : ℝ) ≤ tenor * (f : ℝ) → c.get_par_rate tenor f = .ok r →
      r / (f : ℝ) = (1 - c.get_discount_factor tenor) /
        ((List.range (⌊tenor * (f : ℝ)⌋).toNat).map fun i : ℕ =>
          c.get_discount_factor (((i : ℝ) + 1) * (1 / (f : ℝ)))).sum) := by
  unfold YieldCurve.get_par_rate
  simp only []
  by_cases h0 : tenor ≤ 0
  · rw [if_pos h0]
    exact ⟨⟨fun _ => h0, fun _ => ⟨_, rfl⟩⟩, fun _ h => by cases h⟩
  · rw [if_neg h0]
    refine ⟨⟨fun he => ?_, fun h => absurd h h0⟩, fun hge h => ?_⟩
    · rcases he with ⟨e, he⟩
      cases he
    · obtain rfl := (Except.ok.inj h).symm
      have hfne : ((f : ℕ) : ℝ) ≠ 0 := Nat.cast_ne_zero.mpr (Nat.pos_iff_ne_zero.mp hf)
      exact mul_div_cancel_right₀ _ hfne

/-- C6 witness: instantiation at a concrete two-node flat curve,
`tenor = 1`, semi-annual frequency, and `r = 0`. -/
theorem C6_curve_par_rate_witness :
    0 < 2 ∧
    (((∃ e, (⟨[1, 2], [5 / 100, 5 / 100], .flat, none, .flat, .cubic⟩ :
        YieldCurve).get_par_rate 1 2 = .error e) ↔ (1 : ℝ) ≤ 0) ∧
    ((1 : ℝ) ≤ 1 * ((2 : ℕ) : ℝ) →
      (⟨[1, 2], [5 / 100, 5 / 100], .flat, none, .flat, .cubic⟩ :
        YieldCurve).get_par_rate 1 2 = .ok 0 →
      (0 : ℝ) / ((2 : ℕ) : ℝ) =
        (1 - (⟨[1, 2], [5 / 100, 5 / 100], .flat, none, .flat, .cubic⟩ :
          YieldCurve).get_discount_factor 1) /
        ((List.range (⌊(1 : ℝ) * ((2 : ℕ) : ℝ)⌋).toNat).map fun i : ℕ =>
          (⟨[1, 2], [5 / 100, 5 / 100], .flat, none, .flat, .cubic⟩ :
            YieldCurve).get_discount_factor
              (((i : ℝ) + 1) * (1 / ((2 : ℕ) : ℝ)))).sum)) :=
  ⟨by norm_num,
    C6_curve_par_rate ⟨[1, 2], [5 / 100, 5 / 100], .flat, none, .flat, .cubic⟩
      1 2 0 (by norm_num)⟩

theorem flat_5pct_rate (x : ℝ) (hx : x < 2) :
    (⟨[1, 2], [5 / 100, 5 / 100], .flat, none, .flat, .cubic⟩ :
      YieldCurve).get_rate x = 5 / 100 := by
  show stepRate [((1 : ℝ), (5 : ℝ) / 100), (2, 5 / 100)] x = 5 / 100
  rw [stepRate_cons_cons, if_pos hx]

/-- C6 counterexample: on the flat 5% curve with semi-annual frequency,
the value returned at tenor `1` violates the claimed identity
`par_rate * frequency = (1 - DF) / annuity` — the code returns
`(1 - DF) / annuity * frequency`. -/
theorem C6_counterexample :
    mkYieldCurve [1, 2] [5 / 100, 5 / 100] .flat none .flat .cubic =
      .ok ⟨[1, 2], [5 / 100, 5 / 100], .flat, none, .flat, .cubic⟩ ∧
    ¬ (∀ r : ℝ, (⟨[1, 2], [5 / 100, 5 / 100], .flat, none, .flat, .cubic⟩ :
        YieldCurve).get_par_rate 1 2 = .ok r →
      r * ((2 : ℕ) : ℝ) =
        (1 - (⟨[1, 2], [5 / 100, 5 / 100], .flat, none, .flat, .cubic⟩ :
          YieldCurve).get_discount_factor 1) /
        ((⟨[1, 2], [5 / 100, 5 / 100], .flat, none, .flat, .cubic⟩ :
          YieldCurve).get_discount_factor (1 / 2) +
         (⟨[1, 2], [5 / 100, 5 / 100], .flat, none, .flat, .cubic⟩ :
          YieldCurve).get_discount_factor 1)) := by
  have hdf : ∀ x : ℝ, x < 2 →
      (⟨[1, 2], [5 / 100, 5 / 100], .flat, none, .flat, .cubic⟩ :
        YieldCurve).get_discount_factor x = Real.exp (-(5 / 100 * x)) := by
    intro x hx
    unfold YieldCurve.get_discount_factor
    rw [flat_5pct_rate x hx]
  refine ⟨mkYieldCurve_ok_of (by norm_num) (by
      simp only [List.chain'_cons, List.chain'_singleton, and_true]
      norm_num) (by norm_num) (by simp), ?_⟩
  · intro hall
    have htwo : (⌊(1 : ℝ) * ((2 : ℕ) : ℝ)⌋).toNat = 2 := by
      have h2 : ⌊(1 : ℝ) * ((2 : ℕ) : ℝ)⌋ = 2 := by norm_num
      rw [h2]
      decide
    have hS : ((List.range (⌊(1 : ℝ) * ((2 : ℕ) : ℝ)⌋).toNat).map fun i : ℕ =>
        (⟨[1, 2], [5 / 100, 5 / 100], .flat, none, .flat, .cubic⟩ :
          YieldCurve).get_discount_factor (((i : ℝ) + 1) * (1 / ((2 : ℕ) : ℝ)))).sum =
        Real.exp (-(5 / 100 * (1 / 2))) + Real.exp (-(5 / 100 * 1)) := by
      rw [htwo]
      show (⟨[1, 2], [5 / 100, 5 / 100], .flat, none, .flat, .cubic⟩ :
          YieldCurve).get_discount_factor ((((0 : ℕ) : ℝ) + 1) * (1 / ((2 : ℕ) : ℝ))) +
        ((⟨[1, 2], [5 / 100, 5 / 100], .flat, none, .flat, .cubic⟩ :
          YieldCurve).get_discount_factor ((((1 : ℕ) : ℝ) + 1) * (1 / ((2 : ℕ) : ℝ))) + 0) = _
      rw [show (((0 : ℕ) : ℝ) + 1) * (1 / ((2 : ℕ) : ℝ)) = 1 / 2 by norm_num,
        show (((1 : ℕ) : ℝ) + 1) * (1 / ((2 : ℕ) : ℝ)) = 1 by norm_num,
        hdf (1 / 2) (by norm_num), hdf 1 (by norm_num)]
      ring
    have hok : (⟨[1, 2], [5 / 100, 5 / 100], .flat, none, .flat, .cubic⟩ :
        YieldCurve).get_par_rate 1 2 =
        .ok ((1 - Real.exp (-(5 / 100 * 1))) /
          (Real.exp (-(5 / 100 * (1 / 2))) + Real.exp (-(5 / 100 * 1))) * ((2 : ℕ) : ℝ)) := by
      unfold YieldCurve.get_par_rate
      simp only []
      rw [if_neg (by norm_num), hS, hdf 1 (by norm_num)]
    have heq := hall _ hok
    rw [hdf 1 (by norm_num), hdf (1 / 2) (by norm_num)] at heq
    set P := Real.exp (-(5 / 100 * 1)) with hPdef
    set D := Real.exp (-(5 / 100 * (1 / 2))) with hDdef
    have hSpos : (0 : ℝ) < D + P := by positivity
    have hP1 : P < 1 := by
      rw [hPdef]
      rw [Real.exp_lt_one_iff]
      norm_num
    have hu : (1 - P) / (D + P) = 0 := by
      have h3 : (1 - P) / (D + P) * 3 = 0 := by
        have : (1 - P) / (D + P) * ((2 : ℕ) : ℝ) * ((2 : ℕ) : ℝ) -
            (1 - P) / (D + P) = (1 - P) / (D + P) * 3 := by
          push_cast
          ring
        rw [← this, heq]
        ring
      have := mul_eq_zero.mp h3
      rcases this with h | h
      · exact h
      · norm_num at h
    have : (1 - P) = 0 := by
      rcases div_eq_zero_iff.mp hu with h | h
      · exact h
      · exact absurd h (ne_of_gt hSpos)
    have : P = 1 := by linarith
    rw [this] at hP1
    exact absurd hP1 (lt_irrefl 1)

/-! ### Bounds for piecewise-linear interpolation (LOG_LINEAR safety) -/

theorem linearSegment_bounds {a b ya yb x : ℝ} (hab : a < b) (hax : a ≤ x)
    (hxb : x ≤ b) (hya : 0 < ya) (hya1 : ya ≤ 1) (hyb : 0 < yb) (hyb1 : yb ≤ 1) :
    0 < linearSegment a b ya yb x ∧ linearSegment a b ya yb x ≤ 1 := by
  have hba : (0 : ℝ) < b - a := by linarith
  have hseg : linearSegment a b ya yb x = ya + (x - a) / (b - a) * (yb - ya) := by
    unfold linearSegment
    ring
  set w := (x - a) / (b - a) with hw
  have hw0 : 0 ≤ w := div_nonneg (by linarith) hba.le
  have hw1 : w ≤ 1 := (div_le_one hba).mpr (by linarith)
  constructor
  · rw [hseg]
    rcases eq_or_lt_of_le hw0 with h | h
    · rw [← h]
      simpa using hya
    · nlinarith [mul_pos h hyb, mul_nonneg (sub_nonneg.mpr hw1) hya.le]
  · rw [hseg]
    nlinarith [mul_le_of_le_one_right (sub_nonneg.mpr hw1) hya1,
      mul_le_of_le_one_right hw0 hyb1]

theorem piecewiseLinear_bounds {l : List (ℝ × ℝ)} {p0 pn : ℝ × ℝ} {x : ℝ}
    (hs : l.Chain' (fun p q => p.1 < q.1))
    (hv : ∀ p ∈ l, 0 < p.2 ∧ p.2 ≤ 1)
    (hh : l.head? = some p0) (hl : l.getLast? = some pn)
    (hx0 : p0.1 ≤ x) (hxn : x ≤ pn.1) :
    0 < piecewiseLinear l x ∧ piecewiseLinear l x ≤ 1 := by
  induction l generalizing p0 with
  | nil => cases hh
  | cons p l ih =>
    rw [List.head?_cons, Option.some.injEq] at hh
    obtain rfl := hh.symm
    cases l with
    | nil =>
      simp only [List.getLast?_singleton, Option.some.injEq] at hl
      obtain rfl := hl
      exact hv p0 (List.mem_singleton_self _)
    | cons q l2 =>
      have hpq : p0.1 < q.1 := (List.chain'_cons.mp hs).1
      have hvp := hv p0 (List.mem_cons_self _ _)
      have hvq := hv q (List.mem_cons.mpr (Or.inr (List.mem_cons_self _ _)))
      rw [List.getLast?_cons_cons] at hl
      cases l2 with
      | nil =>
        simp only [List.getLast?_singleton, Option.some.injEq] at hl
        obtain rfl := hl
        exact linearSegment_bounds hpq hx0 hxn hvp.1 hvp.2 hvq.1 hvq.2
      | cons u l3 =>
        by_cases hxq : x ≤ q.1
        · show 0 < (if x ≤ q.1 then linearSegment p0.1 q.1 p0.2 q.2 x else _) ∧
            (if x ≤ q.1 then linearSegment p0.1 q.1 p0.2 q.2 x else _) ≤ 1
          rw [if_pos hxq]
          exact linearSegment_bounds hpq hx0 hxq hvp.1 hvp.2 hvq.1 hvq.2
        · show 0 < (if x ≤ q.1 then linearSegment p0.1 q.1 p0.2 q.2 x else
              piecewiseLinear (q :: u :: l3) x) ∧
            (if x ≤ q.1 then linearSegment p0.1 q.1 p0.2 q.2 x else
              piecewiseLinear (q :: u :: l3) x) ≤ 1
          rw [if_neg hxq]
          exact ih hs.tail (fun r hr => hv r (List.mem_cons.mpr (Or.inr hr)))
            rfl hl (le_of_lt (not_le.mp hxq))

/-- C4 (amended): on a LOG_LINEAR curve built from strictly increasing
positive tenors and nonnegative rates, the discount factor satisfies
`0 < DF(t) ≤ 1` for every tenor inside the node range
`[tenors.head, tenors.last]`; outside that range the linear extrapolation
of the node discount factors can exceed `1`. -/
theorem C4_log_linear_df (ts rs : List ℝ) (cut : Option ℝ) (pre post : Method)
    (c : YieldCurve) (x : ℝ)
    (hmk : mkYieldCurve ts rs .log_linear cut pre post = .ok c)
    (hpos : ∀ t ∈ ts, 0 < t) (hrs : ∀ r ∈ rs, 0 ≤ r)
    (hx0 : ts.head?.getD 0 ≤ x) (hxn : x ≤ ts.getLast?.getD 0) :
    0 < c.get_discount_factor x ∧ c.get_discount_factor x ≤ 1 := by
  obtain ⟨rfl, hlen, hchain, hlen2⟩ := mkYieldCurve_ok_elim hmk
  cases ts with
  | nil => simp at hlen2
  | cons t0 ts2 =>
  cases rs with
  | nil => simp at hlen
  | cons r0 rs2 =>
  have hx0' : t0 ≤ x := by simpa using hx0
  have hxpos : 0 < x := lt_of_lt_of_le (hpos t0 (List.mem_cons_self _ _)) hx0'
  obtain ⟨tn, htn⟩ : ∃ tn, (t0 :: ts2).getLast? = some tn :=
    Option.isSome_iff_exists.mp (by rw [List.getLast?_isSome]; simp)
  obtain ⟨rn, hrn⟩ : ∃ rn, (r0 :: rs2).getLast? = some rn :=
    Option.isSome_iff_exists.mp (by rw [List.getLast?_isSome]; simp)
  have hxn' : x ≤ tn := by
    rw [htn] at hxn
    simpa using hxn
  set l := (t0 :: ts2).zip (r0 :: rs2) with hldef
  have hs' : (toDiscountNodes l).Chain' (fun p q => p.1 < q.1) := by
    unfold toDiscountNodes
    rw [List.chain'_map]
    exact chain'_fst_zip _ hchain
  have hv : ∀ p ∈ toDiscountNodes l, 0 < p.2 ∧ p.2 ≤ 1 := by
    intro p hp
    rcases List.mem_map.mp hp with ⟨⟨t, r⟩, hmem, rfl⟩
    refine ⟨Real.exp_pos _, Real.exp_le_one_iff.mpr ?_⟩
    have ht : 0 < t := hpos t (List.of_mem_zip hmem).1
    have hr : 0 ≤ r := hrs r (List.of_mem_zip hmem).2
    simp only [neg_nonpos]
    positivity
  have hh : (toDiscountNodes l).head? = some (t0, Real.exp (-(t0 * r0))) := by
    rw [hldef, List.zip_cons_cons]
    rfl
  have hl : (toDiscountNodes l).getLast? = some (tn, Real.exp (-(tn * rn))) := by
    unfold toDiscountNodes
    rw [List.getLast?_map, zip_getLast? hlen htn hrn]
    rfl
  have hb := piecewiseLinear_bounds hs' hv hh hl hx0' hxn'
  have hdf : YieldCurve.get_discount_factor
      ⟨t0 :: ts2, r0 :: rs2, .log_linear, cut, pre, post⟩ x =
      piecewiseLinear (toDiscountNodes l) x := by
    unfold YieldCurve.get_discount_factor
    have hr : YieldCurve.get_rate
        ⟨t0 :: ts2, r0 :: rs2, .log_linear, cut, pre, post⟩ x =
        -Real.log (piecewiseLinear (toDiscountNodes l) x) / x := rfl
    rw [hr]
    have harg : -(-Real.log (piecewiseLinear (toDiscountNodes l) x) / x * x) =
        Real.log (piecewiseLinear (toDiscountNodes l) x) := by
      field_simp
    rw [harg, Real.exp_log hb.1]
  rw [hdf]
  exact hb

/-- C4 witness: instantiation at the two-node curve
`tenors = [1, 2]`, `rates = [0.1, 0.01]` and the in-range tenor `1.5`. -/
theorem C4_log_linear_df_witness :
    mkYieldCurve [1, 2] [1 / 10, 1 / 100] .log_linear none .flat .cubic =
      .ok ⟨[1, 2], [1 / 10, 1 / 100], .log_linear, none, .flat, .cubic⟩ ∧
    (∀ t ∈ [(1 : ℝ), 2], 0 < t) ∧ (∀ r ∈ [(1 : ℝ) / 10, 1 / 100], 0 ≤ r) ∧
    [(1 : ℝ), 2].head?.getD 0 ≤ 3 / 2 ∧ (3 / 2 : ℝ) ≤ [(1 : ℝ), 2].getLast?.getD 0 ∧
    (0 < (⟨[1, 2], [1 / 10, 1 / 100], .log_linear, none, .flat, .cubic⟩ :
        YieldCurve).get_discount_factor (3 / 2) ∧
      (⟨[1, 2], [1 / 10, 1 / 100], .log_linear, none, .flat, .cubic⟩ :
        YieldCurve).get_discount_factor (3 / 2) ≤ 1) := by
  have hmk : mkYieldCurve [1, 2] [1 / 10, 1 / 100] .log_linear none .flat .cubic =
      .ok ⟨[1, 2], [1 / 10, 1 / 100], .log_linear, none, .flat, .cubic⟩ :=
    mkYieldCurve_ok_of (by norm_num) (by
      simp only [List.chain'_cons, List.chain'_singleton, and_true]
      norm_num) (by norm_num) (by simp)
  have h1 : ∀ t ∈ [(1 : ℝ), 2], 0 < t := by
    intro t ht
    rcases List.mem_cons.mp ht with rfl | ht
    · norm_num
    · rcases List.mem_singleton.mp ht with rfl
      norm_num
  have h2 : ∀ r ∈ [(1 : ℝ) / 10, 1 / 100], 0 ≤ r := by
    intro r hr
    rcases List.mem_cons.mp hr with rfl | hr
    · norm_num
    · rcases List.mem_singleton.mp hr with rfl
      norm_num
  have h3 : [(1 : ℝ), 2].head?.getD 0 ≤ 3 / 2 := by norm_num
  have h4 : (3 / 2 : ℝ) ≤ [(1 : ℝ), 2].getLast?.getD 0 := by
    rw [show [(1 : ℝ), 2].getLast? = some 2 from rfl]
    norm_num
  exact ⟨hmk, h1, h2, h3, h4,
    C4_log_linear_df [1, 2] [1 / 10, 1 / 100] none .flat .cubic _ (3 / 2)
      hmk h1 h2 h3 h4⟩

/-- On a LOG_LINEAR curve the discount factor equals the interpolated node
discount factor whenever the latter is positive and the tenor is nonzero
(`exp(-( -log(df)/t ) * t) = df`). -/
theorem log_linear_df_eq (ts rs : List ℝ) (cut : Option ℝ) (pre post : Method)
    (x : ℝ) (hx : x ≠ 0)
    (hpos : 0 < piecewiseLinear (toDiscountNodes (ts.zip rs)) x) :
    YieldCurve.get_discount_factor ⟨ts, rs, .log_linear, cut, pre, post⟩ x =
      piecewiseLinear (toDiscountNodes (ts.zip rs)) x := by
  unfold YieldCurve.get_discount_factor
  have hr : YieldCurve.get_rate ⟨ts, rs, .log_linear, cut, pre, post⟩ x =
      -Real.log (piecewiseLinear (toDiscountNodes (ts.zip rs)) x) / x := rfl
  rw [hr]
  have harg : -(-Real.log (piecewiseLinear (toDiscountNodes (ts.zip rs)) x) / x * x) =
      Real.log (piecewiseLinear (toDiscountNodes (ts.zip rs)) x) := by
    field_simp
  rw [harg, Real.exp_log hpos]

/-! ### Interpolators pass through their end nodes (HYBRID agreement) -/

theorem piecewiseLinear_two (p q : ℝ × ℝ) (x : ℝ) :
    piecewiseLinear [p, q] x = linearSegment p.1 q.1 p.2 q.2 x := rfl

theorem piecewiseLinear_cons3 (p q r : ℝ × ℝ) (rest : List (ℝ × ℝ)) (x : ℝ) :
    piecewiseLinear (p :: q :: r :: rest) x =
      if x ≤ q.1 then linearSegment p.1 q.1 p.2 q.2 x
      else piecewiseLinear (q :: r :: rest) x := rfl

theorem linearSegment_left (a b ya yb : ℝ) : linearSegment a b ya yb a = ya := by
  unfold linearSegment
  simp

theorem linearSegment_right {a b : ℝ} (ya yb : ℝ) (h : a < b) :
    linearSegment a b ya yb b = yb := by
  unfold linearSegment
  rw [mul_comm, mul_div_assoc, div_self (sub_ne_zero.mpr h.ne'), mul_one]
  ring

theorem piecewiseLinear_head {l : List (ℝ × ℝ)} {a v : ℝ}
    (hs : l.Chain' (fun p q => p.1 < q.1)) (hh : l.head? = some (a, v)) :
    piecewiseLinear l a = v := by
  cases l with
  | nil => cases hh
  | cons p l =>
    rw [List.head?_cons, Option.some.injEq] at hh
    obtain rfl := hh.symm
    cases l with
    | nil => rfl
    | cons q l2 =>
      have hpq : (a, v).1 < q.1 := (List.chain'_cons.mp hs).1
      cases l2 with
      | nil =>
        rw [piecewiseLinear_two]
        exact linearSegment_left _ _ _ _
      | cons r l3 =>
        rw [piecewiseLinear_cons3, if_pos hpq.le]
        exact linearSegment_left _ _ _ _

theorem piecewiseLinear_last {l : List (ℝ × ℝ)} {a v : ℝ}
    (hs : l.Chain' (fun p q => p.1 < q.1)) (hl : l.getLast? = some (a, v)) :
    piecewiseLinear l a = v := by
  induction l with
  | nil => cases hl
  | cons p l ih =>
    cases l with
    | nil =>
      simp only [List.getLast?_singleton, Option.some.injEq] at hl
      obtain rfl := hl.symm
      rfl
    | cons q l2 =>
      rw [List.getLast?_cons_cons] at hl
      cases l2 with
      | nil =>
        simp only [List.getLast?_singleton, Option.some.injEq] at hl
        obtain rfl := hl.symm
        rw [piecewiseLinear_two]
        exact linearSegment_right _ _ (List.chain'_cons.mp hs).1
      | cons r l3 =>
        have hra : r.1 ≤ a :=
          chain'_fst_le_last hs.tail.tail hl r (List.mem_cons_self _ _)
        have hqa : q.1 < a :=
          lt_of_lt_of_le (List.chain'_cons.mp hs.tail).1 hra
        rw [piecewiseLinear_cons3, if_neg (not_le.mpr hqa)]
        exact ih hs.tail hl

theorem splineSegment_left {a b : ℝ} (ya yb Ma Mb : ℝ) (h : a < b) :
    splineSegment a b ya yb Ma Mb a = ya := by
  unfold splineSegment
  have hne : b - a ≠ 0 := sub_ne_zero.mpr h.ne'
  field_simp
  ring

theorem splineSegment_right {a b : ℝ} (ya yb Ma Mb : ℝ) (h : a < b) :
    splineSegment a b ya yb Ma Mb b = yb := by
  unfold splineSegment
  have hne : b - a ≠ 0 := sub_ne_zero.mpr h.ne'
  field_simp
  ring

theorem splineEvalAux_two (p q : ℝ × ℝ) (Ma Mb : ℝ) (ms : List ℝ) (x : ℝ) :
    splineEvalAux [p, q] (Ma :: Mb :: ms) x =
      splineSegment p.1 q.1 p.2 q.2 Ma Mb x := rfl

theorem splineEvalAux_msnil (l : List (ℝ × ℝ)) (x : ℝ) :
    splineEvalAux l [] x = piecewiseLinear l x := by
  cases l with
  | nil => rfl
  | cons p l =>
    cases l with
    | nil => rfl
    | cons q l2 =>
      cases l2 with
      | nil => rfl
      | cons r l3 => rfl

theorem splineEvalAux_msone (l : List (ℝ × ℝ)) (Ma : ℝ) (x : ℝ) :
    splineEvalAux l [Ma] x = piecewiseLinear l x := by
  cases l with
  | nil => rfl
  | cons p l =>
    cases l with
    | nil => rfl
    | cons q l2 =>
      cases l2 with
      | nil => rfl
      | cons r l3 => rfl

theorem splineEvalAux_cons3 (p q r : ℝ × ℝ) (rest : List (ℝ × ℝ))
    (Ma Mb : ℝ) (ms : List ℝ) (x : ℝ) :
    splineEvalAux (p :: q :: r :: rest) (Ma :: Mb :: ms) x =
      if x ≤ q.1 then splineSegment p.1 q.1 p.2 q.2 Ma Mb x
      else splineEvalAux (q :: r :: rest) (Mb :: ms) x := rfl

theorem splineEvalAux_head {l : List (ℝ × ℝ)} {a v : ℝ} (ms : List ℝ)
    (hs : l.Chain' (fun p q => p.1 < q.1)) (hh : l.head? = some (a, v)) :
    splineEvalAux l ms a = v := by
  cases l with
  | nil => cases hh
  | cons p l =>
    rw [List.head?_cons, Option.some.injEq] at hh
    obtain rfl := hh.symm
    cases l with
    | nil =>
      cases ms with
      | nil => rfl
      | cons Ma ms2 =>
        cases ms2 with
        | nil => rfl
        | cons Mb ms3 => rfl
    | cons q l2 =>
      have hpq : (a, v).1 < q.1 := (List.chain'_cons.mp hs).1
      cases ms with
      | nil =>
        rw [splineEvalAux_msnil]
        exact piecewiseLinear_head hs (by rfl)
      | cons Ma ms2 =>
        cases ms2 with
        | nil =>
          rw [splineEvalAux_msone]
          exact piecewiseLinear_head hs (by rfl)
        | cons Mb ms3 =>
          cases l2 with
          | nil =>
            rw [splineEvalAux_two]
            exact splineSegment_left _ _ _ _ hpq
          | cons r l3 =>
            rw [splineEvalAux_cons3, if_pos hpq.le]
            exact splineSegment_left _ _ _ _ hpq

theorem splineEvalAux_last {l : List (ℝ × ℝ)} {a v : ℝ} (ms : List ℝ)
    (hs : l.Chain' (fun p q => p.1 < q.1)) (hl : l.getLast? = some (a, v)) :
    splineEvalAux l ms a = v := by
  induction l generalizing ms with
  | nil => cases hl
  | cons p l ih =>
    cases l with
    | nil =>
      simp only [List.getLast?_singleton, Option.some.injEq] at hl
      obtain rfl := hl.symm
      cases ms with
      | nil => rfl
      | cons Ma ms2 =>
        cases ms2 with
        | nil => rfl
        | cons Mb ms3 => rfl
    | cons q l2 =>
      cases ms with
      | nil =>
        rw [splineEvalAux_msnil]
        exact piecewiseLinear_last hs hl
      | cons Ma ms2 =>
        cases ms2 with
        | nil =>
          rw [splineEvalAux_msone]
          exact piecewiseLinear_last hs hl
        | cons Mb ms3 =>
          rw [List.getLast?_cons_cons] at hl
          cases l2 with
          | nil =>
            simp only [List.getLast?_singleton, Option.some.injEq] at hl
            obtain rfl := hl.symm
            rw [splineEvalAux_two]
            exact splineSegment_right _ _ _ _ (List.chain'_cons.mp hs).1
          | cons r l3 =>
            have hra : r.1 ≤ a :=
              chain'_fst_le_last hs.tail.tail hl r (List.mem_cons_self _ _)
            have hqa : q.1 < a :=
              lt_of_lt_of_le (List.chain'_cons.mp hs.tail).1 hra
            rw [splineEvalAux_cons3, if_neg (not_le.mpr hqa)]
            exact ih (Mb :: ms3) hs.tail hl

theorem toDiscountNodes_chain' {l : List (ℝ × ℝ)}
    (hs : l.Chain' (fun p q => p.1 < q.1)) :
    (toDiscountNodes l).Chain' (fun p q => p.1 < q.1) := by
  unfold toDiscountNodes
  rw [List.chain'_map]
  exact hs

theorem methodEval_last (m : Method) (hm : m ≠ .hybrid) {l : List (ℝ × ℝ)}
    {a v : ℝ} (hs : l.Chain' (fun p q => p.1 < q.1))
    (hl : l.getLast? = some (a, v)) (ha : a ≠ 0) : methodEval m l a = v := by
  cases m with
  | hybrid => exact absurd rfl hm
  | linear => exact piecewiseLinear_last hs hl
  | flat => exact stepRate_last hs hl (le_refl a)
  | cubic =>
    show cubicEval l a = v
    unfold cubicEval
    split_ifs with h
    · exact piecewiseLinear_last hs hl
    · exact splineEvalAux_last _ hs hl
  | log_linear =>
    show -Real.log (piecewiseLinear (toDiscountNodes l) a) / a = v
    have h1 : (toDiscountNodes l).getLast? = some (a, Real.exp (-(a * v))) := by
      unfold toDiscountNodes
      rw [List.getLast?_map, hl]
      rfl
    rw [piecewiseLinear_last (toDiscountNodes_chain' hs) h1, Real.log_exp,
      neg_neg, mul_comm, mul_div_assoc, div_self ha, mul_one]

theorem mem_of_takeWhile {α : Type} {p : α → Bool} {l : List α} {x : α}
    (h : x ∈ l.takeWhile p) : x ∈ l := by
  induction l with
  | nil => cases h
  | cons a l ih =>
    rw [List.takeWhile_cons] at h
    split_ifs at h with hp
    · rcases List.mem_cons.mp h with rfl | h
      · exact List.mem_cons_self _ _
      · exact List.mem_cons.mpr (Or.inr (ih h))
    · cases h

theorem chain'_takeWhile {α : Type} {R : α → α → Prop} {l : List α}
    (p : α → Bool) (hs : l.Chain' R) : (l.takeWhile p).Chain' R := by
  induction l with
  | nil => simp
  | cons a l ih =>
    rw [List.takeWhile_cons]
    split_ifs with h
    · rw [List.chain'_cons']
      refine ⟨?_, ih hs.tail⟩
      intro y hy
      cases l with
      | nil => cases hy
      | cons b l2 =>
        rw [List.takeWhile_cons] at hy
        split_ifs at hy with h2
        · rw [List.head?_cons] at hy
          simp only [Option.mem_def, Option.some.injEq] at hy
          obtain rfl := hy.symm
          exact (List.chain'_cons.mp hs).1
        · cases hy
    · exact List.chain'_nil

theorem npIsCloseB_eq_true {a b : ℝ} : npIsCloseB a b = true ↔ npIsClose a b := by
  unfold npIsCloseB npIsClose
  exact decide_eq_true_iff

theorem npIsClose_self (a : ℝ) : npIsClose a a := by
  unfold npIsClose
  simp only [sub_self, abs_zero]
  positivity

theorem hybridSplit_pre_nil {l : List (ℝ × ℝ)} {cut : ℝ}
    (h : l.takeWhile (fun p => p.1 ≤ cut) = []) : hybridSplit l cut = ([], l) := by
  unfold hybridSplit
  simp only []
  rw [if_pos h]

theorem hybridSplit_post_nil {l : List (ℝ × ℝ)} {cut : ℝ}
    (hne : l.takeWhile (fun p => p.1 ≤ cut) ≠ [])
    (h : l.dropWhile (fun p => p.1 ≤ cut) = []) : hybridSplit l cut = (l, []) := by
  unfold hybridSplit
  simp only []
  rw [if_neg hne, if_pos h]

theorem hybridSplit_red_middle {l : List (ℝ × ℝ)} {cut : ℝ}
    (hpre0 : l.takeWhile (fun p => p.1 ≤ cut) ≠ [])
    (hpost0 : l.dropWhile (fun p => p.1 ≤ cut) ≠ []) :
    hybridSplit l cut =
      (if l.any (fun p => npIsCloseB p.1 cut) then
        ((l.take (l.findIdx (fun p => npIsCloseB p.1 cut) + 1)),
          (l.drop (l.findIdx (fun p => npIsCloseB p.1 cut))))
      else
        ((l.takeWhile (fun p => p.1 ≤ cut)) ++ [(cut, piecewiseLinear l cut)],
          (cut, piecewiseLinear l cut) :: l.dropWhile (fun p => p.1 ≤ cut))) := by
  unfold hybridSplit
  simp only []
  rw [if_neg hpre0, if_neg hpost0]

theorem hybridSplit_eq_of_pre_nil {l : List (ℝ × ℝ)} {cut : ℝ}
    (h : (hybridSplit l cut).1 = []) : hybridSplit l cut = ([], l) := by
  by_cases h0 : l.takeWhile (fun p => p.1 ≤ cut) = []
  · exact hybridSplit_pre_nil h0
  · exfalso
    have hlne : l ≠ [] := by
      intro hnil
      rw [hnil] at h0
      exact h0 rfl
    by_cases h1 : l.dropWhile (fun p => p.1 ≤ cut) = []
    · rw [hybridSplit_post_nil h0 h1] at h
      exact hlne h
    · rw [hybridSplit_red_middle h0 h1] at h
      split_ifs at h with h2
      · simp only at h
        rw [List.take_eq_nil_iff] at h
        rcases h with h | h
        · cases h
        · exact hlne h
      · simp only at h
        exact List.append_ne_nil_of_right_ne_nil _ (by simp) h

theorem hybridSplit_eq_of_post_nil {l : List (ℝ × ℝ)} {cut : ℝ} (hlne : l ≠ [])
    (h : (hybridSplit l cut).2 = []) : hybridSplit l cut = (l, []) := by
  by_cases h0 : l.takeWhile (fun p => p.1 ≤ cut) = []
  · rw [hybridSplit_pre_nil h0] at h ⊢
    exact absurd h hlne
  · by_cases h1 : l.dropWhile (fun p => p.1 ≤ cut) = []
    · exact hybridSplit_post_nil h0 h1
    · exfalso
      rw [hybridSplit_red_middle h0 h1] at h
      split_ifs at h with h2
      · simp only at h
        rw [List.drop_eq_nil_iff] at h
        have he : l.findIdx (fun p => npIsCloseB p.1 cut) < l.length :=
          List.findIdx_lt_length.mpr (List.any_eq_true.mp h2)
        omega

theorem hybridSplit_middle {l : List (ℝ × ℝ)} {cut : ℝ}
    (hs : l.Chain' (fun p q => p.1 < q.1))
    (hexact : ∀ p ∈ l, npIsClose p.1 cut → p.1 = cut)
    (hpre : (hybridSplit l cut).1 ≠ []) (hpost : (hybridSplit l cut).2 ≠ []) :
    ∃ v, (hybridSplit l cut).1.getLast? = some (cut, v) ∧
      (hybridSplit l cut).2.head? = some (cut, v) ∧
      (hybridSplit l cut).1.Chain' (fun p q => p.1 < q.1) ∧
      (hybridSplit l cut).2.Chain' (fun p q => p.1 < q.1) := by
  have hpre0 : l.takeWhile (fun p => p.1 ≤ cut) ≠ [] := by
    intro hnil
    rw [hybridSplit_pre_nil hnil] at hpre
    exact hpre rfl
  have hpost0 : l.dropWhile (fun p => p.1 ≤ cut) ≠ [] := by
    intro hnil
    rw [hybridSplit_post_nil hpre0 hnil] at hpost
    exact hpost rfl
  have hred := hybridSplit_red_middle hpre0 hpost0
  by_cases hany : l.any (fun p => npIsCloseB p.1 cut) = true
  · rw [hred, if_pos hany]
    set e := l.findIdx (fun p => npIsCloseB p.1 cut) with hedef
    have he : e < l.length := List.findIdx_lt_length.mpr (List.any_eq_true.mp hany)
    have hclose : npIsCloseB (l[e]).1 cut = true := List.findIdx_getElem (w := he)
    have hcuteq : (l[e]).1 = cut :=
      hexact l[e] (List.getElem_mem he) (npIsCloseB_eq_true.mp hclose)
    have hnode : l[e] = (cut, (l[e]).2) := by
      rw [← hcuteq]
    refine ⟨(l[e]).2, ?_, ?_, hs.take _, hs.drop _⟩
    · rw [List.getLast?_take]
      rw [if_neg (Nat.succ_ne_zero e)]
      simp only [Nat.add_sub_cancel]
      rw [List.getElem?_eq_getElem he, ← hnode]
      rfl
    · rw [List.head?_drop, List.getElem?_eq_getElem he, ← hnode]
  · rw [hred, if_neg hany]
    have hnotclose : ∀ p ∈ l, ¬ npIsClose p.1 cut := by
      intro p hp hcl
      have hfalse : l.any (fun p => npIsCloseB p.1 cut) = false :=
        Bool.not_eq_true _ ▸ Bool.of_not_eq_true hany
      exact (List.any_eq_false.mp hfalse) p hp (npIsCloseB_eq_true.mpr hcl)
    have hlt : ∀ p ∈ l.takeWhile (fun p => p.1 ≤ cut), p.1 < cut := by
      intro p hp
      have hle : p.1 ≤ cut := by
        have := List.mem_takeWhile_imp hp
        exact of_decide_eq_true this
      rcases lt_or_eq_of_le hle with h | h
      · exact h
      · exact absurd (h ▸ npIsClose_self cut) (hnotclose p (mem_of_takeWhile hp))
    refine ⟨piecewiseLinear l cut, List.getLast?_concat _, rfl, ?_, ?_⟩
    · rw [List.chain'_append]
      refine ⟨chain'_takeWhile _ hs, List.chain'_singleton _, ?_⟩
      intro p hp q hq
      simp only [List.head?_cons, Option.mem_def, Option.some.injEq] at hq
      obtain rfl := hq.symm
      exact hlt p (List.mem_of_mem_getLast? hp)
    · rw [List.chain'_cons']
      refine ⟨?_, hs.suffix (List.dropWhile_suffix _)⟩
      intro q hq
      have hmatch := List.head?_dropWhile_not (fun p => decide (p.1 ≤ cut)) l
      rcases hhead : (l.dropWhile (fun p => p.1 ≤ cut)).head? with _ | y
      · rw [hhead] at hq
        cases hq
      · rw [hhead] at hq hmatch
        simp only [Option.mem_def, Option.some.injEq] at hq
        obtain rfl := hq.symm
        simp only [decide_eq_false_iff_not, not_le] at hmatch
        exact hmatch

theorem mkYieldCurve_ok_hybrid_elim {ts rs : List ℝ} {cv : ℝ}
    {pre post : Method} {c : YieldCurve}
    (h : mkYieldCurve ts rs .hybrid (some cv) pre post = .ok c) :
    c = ⟨ts, rs, .hybrid, some cv, pre, post⟩ ∧ ts.length = rs.length ∧
      ts.Chain' (· < ·) ∧ 2 ≤ ts.length ∧
      ((hybridSplit (ts.zip rs) cv).1 ≠ [] → pre ≠ .hybrid) ∧
      ((hybridSplit (ts.zip rs) cv).2 ≠ [] → post ≠ .hybrid) := by
  unfold mkYieldCurve at h
  by_cases h1 : ts.length ≠ rs.length
  · rw [if_pos h1] at h; cases h
  rw [if_neg h1] at h
  by_cases h2 : ¬ ts.Chain' (· < ·)
  · rw [if_pos h2] at h; cases h
  rw [if_neg h2] at h
  by_cases h3 : ts.length < 2
  · rw [if_pos h3] at h; cases h
  rw [if_neg h3] at h
  simp only [ne_eq] at h
  split_ifs at h with h4
  push_neg at h4
  exact ⟨(Except.ok.inj h).symm, not_not.mp h1, not_not.mp h2, not_lt.mp h3,
    fun hne => h4.1 hne, fun hne => h4.2 hne⟩

theorem get_rate_hybrid (ts rs : List ℝ) (cv : ℝ) (pre post : Method)
    (tenor : ℝ) :
    YieldCurve.get_rate ⟨ts, rs, .hybrid, some cv, pre, post⟩ tenor =
      (if tenor ≤ cv then
        if (hybridSplit (ts.zip rs) cv).1 = [] then
          methodEval post (hybridSplit (ts.zip rs) cv).2 tenor
        else methodEval pre (hybridSplit (ts.zip rs) cv).1 tenor
      else
        if (hybridSplit (ts.zip rs) cv).2 = [] then
          methodEval pre (hybridSplit (ts.zip rs) cv).1 tenor
        else methodEval post (hybridSplit (ts.zip rs) cv).2 tenor) := rfl

theorem methodEval_head (m : Method) (hm : m ≠ .hybrid) {l : List (ℝ × ℝ)}
    {a v : ℝ} (hs : l.Chain' (fun p q => p.1 < q.1))
    (hh : l.head? = some (a, v)) (ha : a ≠ 0) : methodEval m l a = v := by
  cases m with
  | hybrid => exact absurd rfl hm
  | linear => exact piecewiseLinear_head hs hh
  | flat => exact stepRate_head hs hh (le_refl a)
  | cubic =>
    show cubicEval l a = v
    unfold cubicEval
    split_ifs with h
    · exact piecewiseLinear_head hs hh
    · exact splineEvalAux_head _ hs hh
  | log_linear =>
    show -Real.log (piecewiseLinear (toDiscountNodes l) a) / a = v
    have h1 : (toDiscountNodes l).head? = some (a, Real.exp (-(a * v))) := by
      unfold toDiscountNodes
      rw [List.head?_map, hh]
      rfl
    rw [piecewiseLinear_head (toDiscountNodes_chain' hs) h1, Real.log_exp,
      neg_neg, mul_comm, mul_div_assoc, div_self ha, mul_one]

/-- C5: on a HYBRID curve with nodes on both sides of the cutoff (both
split components nonempty), `get_rate` below the cutoff equals the
pre-cutoff sub-interpolator, above the cutoff equals the post-cutoff
sub-interpolator, and at exactly the cutoff the two sub-interpolators
agree (the split places the cutoff node at the end of the pre range and
the head of the post range, and either sub-interpolator passes through
that node); if one split component is empty, every query is routed to the
other sub-interpolator regardless of the tenor.  Tenors are positive, and
any node `np.isclose` to the cutoff is assumed to sit exactly at the
cutoff (otherwise the two sides agree only within the `isclose`
tolerance). -/
theorem C5_hybrid_get_rate (ts rs : List ℝ) (cut : ℝ) (pre post : Method)
    (c : YieldCurve) (tenor : ℝ)
    (hmk : mkYieldCurve ts rs .hybrid (some cut) pre post = .ok c)
    (hpos : ∀ t ∈ ts, 0 < t)
    (hexact : ∀ t ∈ ts, npIsClose t cut → t = cut) :
    (tenor < cut → (hybridSplit (ts.zip rs) cut).1 ≠ [] →
      c.get_rate tenor = methodEval pre (hybridSplit (ts.zip rs) cut).1 tenor) ∧
    (cut < tenor → (hybridSplit (ts.zip rs) cut).2 ≠ [] →
      c.get_rate tenor = methodEval post (hybridSplit (ts.zip rs) cut).2 tenor) ∧
    ((hybridSplit (ts.zip rs) cut).1 ≠ [] → (hybridSplit (ts.zip rs) cut).2 ≠ [] →
      methodEval pre (hybridSplit (ts.zip rs) cut).1 cut =
        methodEval post (hybridSplit (ts.zip rs) cut).2 cut) ∧
    ((hybridSplit (ts.zip rs) cut).1 = [] →
      c.get_rate tenor = methodEval post (hybridSplit (ts.zip rs) cut).2 tenor) ∧
    ((hybridSplit (ts.zip rs) cut).2 = [] → (hybridSplit (ts.zip rs) cut).1 ≠ [] →
      c.get_rate tenor = methodEval pre (hybridSplit (ts.zip rs) cut).1 tenor) := by
  obtain ⟨rfl, hlen, hchain, hlen2, hpreM, hpostM⟩ := mkYieldCurve_ok_hybrid_elim hmk
  have hzs := chain'_fst_zip rs hchain
  have hexact' : ∀ p ∈ ts.zip rs, npIsClose p.1 cut → p.1 = cut :=
    fun p hp => hexact p.1 (List.of_mem_zip hp).1
  have hlne : ts.zip rs ≠ [] := by
    apply List.ne_nil_of_length_pos
    rw [List.length_zip, ← hlen, min_self]
    omega
  refine ⟨?_, ?_, ?_, ?_, ?_⟩
  · intro hlt h1ne
    rw [get_rate_hybrid, if_pos hlt.le, if_neg h1ne]
  · intro hlt h2ne
    rw [get_rate_hybrid, if_neg (not_le.mpr hlt), if_neg h2ne]
  · intro h1ne h2ne
    obtain ⟨v, hlast, hhead, hc1, hc2⟩ := hybridSplit_middle hzs hexact' h1ne h2ne
    have hpre0 : (ts.zip rs).takeWhile (fun p => p.1 ≤ cut) ≠ [] := by
      intro hnil
      exact h1ne (congrArg Prod.fst (hybridSplit_pre_nil hnil))
    rcases hlist : (ts.zip rs).takeWhile (fun q => q.1 ≤ cut) with _ | ⟨pr, rest⟩
    · exact absurd hlist hpre0
    · have hpmem : pr ∈ (ts.zip rs).takeWhile (fun q => q.1 ≤ cut) := by
        rw [hlist]
        exact List.mem_cons_self _ _
      have hple : pr.1 ≤ cut :=
        of_decide_eq_true (List.mem_takeWhile_imp
          (p := fun q : ℝ × ℝ => decide (q.1 ≤ cut)) hpmem)
      have hpl : pr ∈ ts.zip rs := mem_of_takeWhile hpmem
      have hcut : (0 : ℝ) < cut :=
        lt_of_lt_of_le (hpos pr.1 (List.of_mem_zip hpl).1) hple
      rw [methodEval_last pre (hpreM h1ne) hc1 hlast (ne_of_gt hcut),
        methodEval_head post (hpostM h2ne) hc2 hhead (ne_of_gt hcut)]
  · intro h1nil
    have heq := hybridSplit_eq_of_pre_nil h1nil
    rw [get_rate_hybrid]
    by_cases ht : tenor ≤ cut
    · rw [if_pos ht, if_pos h1nil]
    · rw [if_neg ht, if_neg (by rw [heq]; simpa using hlne)]
  · intro h2nil h1ne
    rw [get_rate_hybrid]
    by_cases ht : tenor ≤ cut
    · rw [if_pos ht, if_neg h1ne]
    · rw [if_neg ht, if_pos h2nil]

/-- C5 witness: instantiation at a three-node hybrid curve with an exact
node at the cutoff `2`, flat before and linear after, queried at `1.5`. -/
theorem C5_hybrid_get_rate_witness :
    mkYieldCurve [1, 2, 3] [5 / 100, 6 / 100, 7 / 100] .hybrid (some 2)
      .flat .linear =
      .ok ⟨[1, 2, 3], [5 / 100, 6 / 100, 7 / 100], .hybrid, some 2, .flat, .linear⟩ ∧
    (∀ t ∈ [(1 : ℝ), 2, 3], 0 < t) ∧
    (∀ t ∈ [(1 : ℝ), 2, 3], npIsClose t 2 → t = 2) ∧
    (((3 : ℝ) / 2 < 2 →
      (hybridSplit ([(1 : ℝ), 2, 3].zip [(5 : ℝ) / 100, 6 / 100, 7 / 100]) 2).1 ≠ [] →
      (⟨[1, 2, 3], [5 / 100, 6 / 100, 7 / 100], .hybrid, some 2, .flat, .linear⟩ :
        YieldCurve).get_rate (3 / 2) =
        methodEval .flat
          (hybridSplit ([(1 : ℝ), 2, 3].zip [(5 : ℝ) / 100, 6 / 100, 7 / 100]) 2).1
          (3 / 2)) ∧
    ((2 : ℝ) < 3 / 2 →
      (hybridSplit ([(1 : ℝ), 2, 3].zip [(5 : ℝ) / 100, 6 / 100, 7 / 100]) 2).2 ≠ [] →
      (⟨[1, 2, 3], [5 / 100, 6 / 100, 7 / 100], .hybrid, some 2, .flat, .linear⟩ :
        YieldCurve).get_rate (3 / 2) =
        methodEval .linear
          (hybridSplit ([(1 : ℝ), 2, 3].zip [(5 : ℝ) / 100, 6 / 100, 7 / 100]) 2).2
          (3 / 2)) ∧
    ((hybridSplit ([(1 : ℝ), 2, 3].zip [(5 : ℝ) / 100, 6 / 100, 7 / 100]) 2).1 ≠ [] →
      (hybridSplit ([(1 : ℝ), 2, 3].zip [(5 : ℝ) / 100, 6 / 100, 7 / 100]) 2).2 ≠ [] →
      methodEval .flat
        (hybridSplit ([(1 : ℝ), 2, 3].zip [(5 : ℝ) / 100, 6 / 100, 7 / 100]) 2).1 2 =
      methodEval .linear
        (hybridSplit ([(1 : ℝ), 2, 3].zip [(5 : ℝ) / 100, 6 / 100, 7 / 100]) 2).2 2) ∧
    ((hybridSplit ([(1 : ℝ), 2, 3].zip [(5 : ℝ) / 100, 6 / 100, 7 / 100]) 2).1 = [] →
      (⟨[1, 2, 3], [5 / 100, 6 / 100, 7 / 100], .hybrid, some 2, .flat, .linear⟩ :
        YieldCurve).get_rate (3 / 2) =
        methodEval .linear
          (hybridSplit ([(1 : ℝ), 2, 3].zip [(5 : ℝ) / 100, 6 / 100, 7 / 100]) 2).2
          (3 / 2)) ∧
    ((hybridSplit ([(1 : ℝ), 2, 3].zip [(5 : ℝ) / 100, 6 / 100, 7 / 100]) 2).2 = [] →
      (hybridSplit ([(1 : ℝ), 2, 3].zip [(5 : ℝ) / 100, 6 / 100, 7 / 100]) 2).1 ≠ [] →
      (⟨[1, 2, 3], [5 / 100, 6 / 100, 7 / 100], .hybrid, some 2, .flat, .linear⟩ :
        YieldCurve).get_rate (3 / 2) =
        methodEval .flat
          (hybridSplit ([(1 : ℝ), 2, 3].zip [(5 : ℝ) / 100, 6 / 100, 7 / 100]) 2).1
          (3 / 2))) := by
  have hmk : mkYieldCurve [1, 2, 3] [5 / 100, 6 / 100, 7 / 100] .hybrid (some 2)
      .flat .linear =
      .ok ⟨[1, 2, 3], [5 / 100, 6 / 100, 7 / 100], .hybrid, some 2, .flat,
        .linear⟩ := by
    unfold mkYieldCurve
    rw [if_neg (by norm_num), if_neg (by
      simp only [not_not, List.chain'_cons, List.chain'_singleton, and_true]
      norm_num), if_neg (by norm_num)]
    simp only [ne_eq]
    rw [if_neg (by simp)]
  have hpos : ∀ t ∈ [(1 : ℝ), 2, 3], 0 < t := by
    intro t ht
    rcases List.mem_cons.mp ht with rfl | ht
    · norm_num
    rcases List.mem_cons.mp ht with rfl | ht
    · norm_num
    rcases List.mem_singleton.mp ht with rfl
    norm_num
  have hexact : ∀ t ∈ [(1 : ℝ), 2, 3], npIsClose t 2 → t = 2 := by
    intro t ht
    rcases List.mem_cons.mp ht with rfl | ht
    · intro h
      exfalso
      unfold npIsClose at h
      rw [show (1 : ℝ) - 2 = -1 by norm_num, abs_neg, abs_one,
        show |(2 : ℝ)| = 2 from abs_of_pos (by norm_num)] at h
      norm_num at h
    rcases List.mem_cons.mp ht with rfl | ht
    · exact fun _ => rfl
    rcases List.mem_singleton.mp ht with rfl
    intro h
    exfalso
    unfold npIsClose at h
    rw [show (3 : ℝ) - 2 = 1 by norm_num, abs_one,
      show |(2 : ℝ)| = 2 from abs_of_pos (by norm_num)] at h
    norm_num at h
  exact ⟨hmk, hpos, hexact,
    C5_hybrid_get_rate [1, 2, 3] [5 / 100, 6 / 100, 7 / 100] 2 .flat .linear
      _ (3 / 2) hmk hpos hexact⟩

/-- C4 counterexample: LOG_LINEAR curves with nonnegative rates and
strictly increasing positive tenors whose discount factor exceeds `1`
under extrapolation — beyond the last node (`tenors [1, 2]`,
`rates [0.1, 0.01]` at tenor `10`) and below the first node
(`tenors [1, 1.1]`, `rates [0.01, 2]` at tenor `0.5`). -/
theorem C4_counterexample :
    mkYieldCurve [1, 2] [1 / 10, 1 / 100] .log_linear none .flat .cubic =
      .ok ⟨[1, 2], [1 / 10, 1 / 100], .log_linear, none, .flat, .cubic⟩ ∧
    (0 : ℝ) ≤ 10 ∧
    1 < (⟨[1, 2], [1 / 10, 1 / 100], .log_linear, none, .flat, .cubic⟩ :
      YieldCurve).get_discount_factor 10 ∧
    mkYieldCurve [1, 11 / 10] [1 / 100, 2] .log_linear none .flat .cubic =
      .ok ⟨[1, 11 / 10], [1 / 100, 2], .log_linear, none, .flat, .cubic⟩ ∧
    (0 : ℝ) ≤ 1 / 2 ∧
    1 < (⟨[1, 11 / 10], [1 / 100, 2], .log_linear, none, .flat, .cubic⟩ :
      YieldCurve).get_discount_factor (1 / 2) := by
  have hvalA : piecewiseLinear
      (toDiscountNodes ([(1 : ℝ), 2].zip [(1 : ℝ) / 10, 1 / 100])) 10 =
      9 * Real.exp (-(2 * (1 / 100)) : ℝ) - 8 * Real.exp (-(1 * (1 / 10)) : ℝ) := by
    show linearSegment 1 2 (Real.exp (-(1 * (1 / 10))))
      (Real.exp (-(2 * (1 / 100)))) 10 = _
    unfold linearSegment
    ring
  have hgtA : 1 < 9 * Real.exp (-(2 * (1 / 100)) : ℝ) -
      8 * Real.exp (-(1 * (1 / 10)) : ℝ) := by
    have h1 := Real.add_one_le_exp (-(2 * (1 / 100)) : ℝ)
    have h2 := Real.add_one_le_exp ((1 * (1 / 10)) : ℝ)
    have h3 : Real.exp (-(1 * (1 / 10)) : ℝ) ≤ 10 / 11 := by
      rw [Real.exp_neg]
      have hb : (11 / 10 : ℝ) ≤ Real.exp (1 * (1 / 10)) := by linarith
      calc (Real.exp (1 * (1 / 10)))⁻¹ ≤ ((11 : ℝ) / 10)⁻¹ := by
            apply inv_anti₀ (by norm_num) hb
        _ = 10 / 11 := by norm_num
    linarith
  have hvalB : piecewiseLinear
      (toDiscountNodes ([(1 : ℝ), 11 / 10].zip [(1 : ℝ) / 100, 2])) (1 / 2) =
      6 * Real.exp (-(1 * (1 / 100)) : ℝ) - 5 * Real.exp (-(11 / 10 * 2) : ℝ) := by
    show linearSegment 1 (11 / 10) (Real.exp (-(1 * (1 / 100))))
      (Real.exp (-(11 / 10 * 2))) (1 / 2) = _
    unfold linearSegment
    ring
  have hgtB : 1 < 6 * Real.exp (-(1 * (1 / 100)) : ℝ) -
      5 * Real.exp (-(11 / 10 * 2) : ℝ) := by
    have h1 := Real.add_one_le_exp (-(1 * (1 / 100)) : ℝ)
    have h2 := Real.add_one_le_exp ((11 / 10 * 2) : ℝ)
    have h3 : Real.exp (-(11 / 10 * 2) : ℝ) ≤ 5 / 16 := by
      rw [Real.exp_neg]
      have hb : (16 / 5 : ℝ) ≤ Real.exp (11 / 10 * 2) := by linarith
      calc (Real.exp (11 / 10 * 2))⁻¹ ≤ ((16 : ℝ) / 5)⁻¹ := by
            apply inv_anti₀ (by norm_num) hb
        _ = 5 / 16 := by norm_num
    linarith
  refine ⟨mkYieldCurve_ok_of (by norm_num) (by
      simp only [List.chain'_cons, List.chain'_singleton, and_true]
      norm_num) (by norm_num) (by simp), by norm_num, ?_,
    mkYieldCurve_ok_of (by norm_num) (by
      simp only [List.chain'_cons, List.chain'_singleton, and_true]
      norm_num) (by norm_num) (by simp), by norm_num, ?_⟩
  · rw [log_linear_df_eq [1, 2] [1 / 10, 1 / 100] none .flat .cubic 10
      (by norm_num) (by rw [hvalA]; linarith), hvalA]
    exact hgtA
  · rw [log_linear_df_eq [1, 11 / 10] [1 / 100, 2] none .flat .cubic (1 / 2)
      (by norm_num) (by rw [hvalB]; linarith), hvalB]
    exact hgtB

